import Mathlib

/-! # cam2-com-documentation: link extraction, de-duplication, filename sanitising

A shallow embedding of the functions of `main.go` that carry the logic:

* `extractPDFUrls`   (the regular expression `href="([^"]+\.pdf[^"]*)"`),
* `removeDuplicatesFromSlice`,
* `getFilename`, `removeSubstring`, `getFileExtension`, `urlToFilename`,
* `fileExists` and `downloadPDF`, over an explicit disk and with the answer of
  every network and file-system step as an input,
* `hasDomain` and `extractBaseDomain`, over a model of `url.Parse`.

Go strings are modelled as sequences of Unicode characters (`List Char` inside,
`String` at the surface).  The Go library functions the program calls
(`strings.ToLower`, `strings.Trim`, `strings.ReplaceAll`, `strings.Contains`,
`strings.Split`, `filepath.Base`, `filepath.Ext`, `filepath.Join`,
`regexp.ReplaceAllString`, `regexp.FindAllStringSubmatch`, `url.Parse`,
`URL.Hostname`) are written out as list programs that follow the library's
code; path functions are the Unix ones (separator `/`).
-/

namespace Cam2

/-! ## Go library functions -/

/-- Go `unicode.ToLower`.  ASCII capitals go to ASCII small letters.  Exactly two
non-ASCII characters lower-case into ASCII: U+0130 (capital I with dot) to `i`
and U+212A (Kelvin sign) to `k`.  Every other non-ASCII character is sent by Go
to a non-ASCII character; here it is kept as it is, and both choices are outside
`[a-z0-9]` and different from the path separator, which is all the callers look at. -/
def unicodeToLower (c : Char) : Char :=
  if c = Char.ofNat 0x130 then 'i'
  else if c = Char.ofNat 0x212A then 'k'
  else c.toLower

/-- Go `strings.ToLower`: lower-case every character. -/
def stringsToLower (s : List Char) : List Char :=
  s.map unicodeToLower

/-- Go `filepath.Base` (Unix): `"."` for the empty path; otherwise strip the
trailing separators, keep what follows the last separator, and give `"/"` when
nothing is left. -/
def filepathBase (path : List Char) : List Char :=
  if path = [] then ['.']
  else
    let stripped := path.rdropWhile (fun c => c == '/')
    let last := stripped.rtakeWhile (fun c => c != '/')
    if last = [] then ['/'] else last

/-- The loop of Go `filepath.Ext`, walking from the last character towards the
first: `before` is what is still to be visited (nearest character first) and
`after` is the text already walked over.  It stops with the empty string at a
separator and with the dot and everything after it at a dot. -/
def extScan : List Char → List Char → List Char
  | [], _ => []
  | c :: before, after =>
    if c = '/' then []
    else if c = '.' then '.' :: after
    else extScan before (c :: after)

/-- Go `filepath.Ext` (Unix): the suffix beginning at the last dot of the last
path element, empty when there is no dot. -/
def filepathExt (path : List Char) : List Char :=
  extScan path.reverse []

/-- Go `strings.Trim(s, cutset)` for a one-character cutset: drop the leading
and the trailing occurrences of that character. -/
def stringsTrim (s : List Char) (cut : Char) : List Char :=
  (s.dropWhile (fun c => c == cut)).rdropWhile (fun c => c == cut)

/-- The loop of Go `strings.Replace(s, old, "", -1)` for a non-empty `old`:
scan left to right; where `old` starts, drop it and go on right after it
(`skip` counts the characters of a found occurrence still to be dropped);
otherwise keep the character. -/
def dropOccurrences (old : List Char) : Nat → List Char → List Char
  | _, [] => []
  | skip + 1, _ :: cs => dropOccurrences old skip cs
  | 0, c :: cs =>
    if old.isPrefixOf (c :: cs) then dropOccurrences old (old.length - 1) cs
    else c :: dropOccurrences old 0 cs

/-- Go `strings.ReplaceAll(s, old, "")`: `s` itself when `old` is empty (old and
new are then equal), otherwise every non-overlapping occurrence of `old`, found
left to right in `s`, is removed. -/
def stringsReplaceAllEmpty (s old : List Char) : List Char :=
  if old = [] then s else dropOccurrences old 0 s

/-- The character class `[a-z0-9]`. -/
def isLowerAlnum (c : Char) : Bool :=
  ('a' ≤ c && c ≤ 'z') || ('0' ≤ c && c ≤ '9')

/-- The call `regexp.MustCompile([^a-z0-9]).ReplaceAllString(s, "_")`: every
character outside `[a-z0-9]` is one match and becomes `_`. -/
def replaceNonAlnum (s : List Char) : List Char :=
  s.map (fun c => if isLowerAlnum c then c else '_')

/-- The call `regexp.MustCompile(_+).ReplaceAllString(s, "_")`: every maximal run
of underscores is one match and becomes a single `_`.  `inRun` says that the
previous character belonged to the run being replaced. -/
def collapseRuns : Bool → List Char → List Char
  | _, [] => []
  | inRun, c :: cs =>
    if c = '_' then
      if inRun then collapseRuns true cs else '_' :: collapseRuns true cs
    else c :: collapseRuns false cs

/-! ## The sanitiser of `main.go` -/

/-- `getFilename` of main.go: `filepath.Base(path)`. -/
def getFilename (path : String) : String :=
  String.mk (filepathBase path.data)

/-- `removeSubstring` of main.go: `strings.ReplaceAll(input, toRemove, "")`. -/
def removeSubstring (input toRemove : String) : String :=
  String.mk (stringsReplaceAllEmpty input.data toRemove.data)

/-- `getFileExtension` of main.go: `filepath.Ext(path)`. -/
def getFileExtension (path : String) : String :=
  String.mk (filepathExt path.data)

/-- `urlToFilename` of main.go, statement by statement. -/
def urlToFilename (rawURL : String) : String :=
  let lower := String.mk (stringsToLower rawURL.data)
  let lower := getFilename lower
  let safe := String.mk (replaceNonAlnum lower.data)
  let safe := String.mk (collapseRuns false safe.data)
  let safe := String.mk (stringsTrim safe.data '_')
  let invalidSubstrings := ["_pdf"]
  let safe := invalidSubstrings.foldl (fun acc invalidPre => removeSubstring acc invalidPre) safe
  if getFileExtension safe != ".pdf" then safe ++ ".pdf" else safe

/-! ## The regular expression of `extractPDFUrls` -/

/-- A literal piece of a pattern: when the input starts with `lit`, the text
that follows it. -/
def matchLiteral : List Char → List Char → Option (List Char)
  | [], s => some s
  | _ :: _, [] => none
  | l :: ls, c :: cs => if l = c then matchLiteral ls cs else none

/-- The character class `[^"]`. -/
def notQuote (c : Char) : Bool :=
  c != '"'

/-- A greedy repetition `[^"]*` followed by the rest `k` of the pattern: take
one more character when the class allows it and try what follows; when that
fails, give the character back and run `k` here.  `taken` is the text the
repetition has consumed. -/
def matchStar {α : Type} (k : List Char → List Char → Option α) :
    List Char → List Char → Option α
  | taken, [] => k taken []
  | taken, c :: cs =>
    if notQuote c then
      match matchStar k (taken ++ [c]) cs with
      | some r => some r
      | none => k taken (c :: cs)
    else k taken (c :: cs)

/-- The end of the pattern, after the `[^"]*` of group 1 has taken `back`: the
closing quote.  On success: group 1 and the text after the match. -/
def matchClose (front back rest : List Char) : Option (List Char × List Char) :=
  match matchLiteral "\"".data rest with
  | none => none
  | some rest => some (front ++ ".pdf".data ++ back, rest)

/-- The pattern from `\.pdf` on, after the `[^"]+` of group 1 has taken `front`:
the literal `.pdf`, then `[^"]*`, then the closing quote. -/
def matchPdf (front rest : List Char) : Option (List Char × List Char) :=
  match matchLiteral ".pdf".data rest with
  | none => none
  | some rest => matchStar (matchClose front) [] rest

/-- The pattern `href="([^"]+\.pdf[^"]*)"` tried at the start of `s`, in the
order of a backtracking search (Go returns the match such a search finds
first): the literal `href="`, one character of `[^"]`, then the greedy
repetition and the rest of the pattern.  The result is capture group 1 and the
text after the match. -/
def matchHref (s : List Char) : Option (List Char × List Char) :=
  match matchLiteral "href=\"".data s with
  | none => none
  | some [] => none
  | some (c :: cs) => if notQuote c then matchStar matchPdf [c] cs else none

/-- Go `FindAllStringSubmatch(s, -1)` for the pattern of `matchHref`: the
leftmost match, then the leftmost match in what follows it, and so on.  Each
entry is `[whole match, group 1]`.  `skip` counts the characters of the match
just found that are still to be stepped over. -/
def findAllSubmatch : Nat → List Char → List (List (List Char))
  | _, [] => []
  | skip + 1, _ :: cs => findAllSubmatch skip cs
  | 0, c :: cs =>
    match matchHref (c :: cs) with
    | some (group, rest) =>
      let whole := (c :: cs).take ((c :: cs).length - rest.length)
      [whole, group] :: findAllSubmatch (whole.length - 1) cs
    | none => findAllSubmatch 0 cs

/-- `extractPDFUrls` of main.go: the first capture group of every match, in the
order of the matches. -/
def extractPDFUrls (htmlContent : String) : List String :=
  let allMatches := findAllSubmatch 0 htmlContent.data
  allMatches.foldl
    (fun pdfURLs m =>
      match m with
      | _ :: group :: _ => pdfURLs ++ [String.mk group]
      | _ => pdfURLs)
    []

/-! ## De-duplication -/

/-- The loop of `removeDuplicatesFromSlice`: `check` is the map of seen values
(a missing key reads as `false`), `newReturnSlice` the result built so far. -/
def removeDuplicatesLoop : (String → Bool) → List String → List String → List String
  | _, newReturnSlice, [] => newReturnSlice
  | check, newReturnSlice, content :: rest =>
    if !check content then
      removeDuplicatesLoop (fun key => if key = content then true else check key)
        (newReturnSlice ++ [content]) rest
    else removeDuplicatesLoop check newReturnSlice rest

/-- `removeDuplicatesFromSlice` of main.go. -/
def removeDuplicatesFromSlice (slice : List String) : List String :=
  removeDuplicatesLoop (fun _ => false) [] slice

/-! ## The downloader of `main.go` -/

/-- Go `strings.Contains(s, substr)`: `substr` starts at some position of `s`. -/
def stringsContains : List Char → List Char → Bool
  | [], substr => substr.isEmpty
  | c :: cs, substr => substr.isPrefixOf (c :: cs) || stringsContains cs substr

/-- Go `strings.Split(s, sep)` for a one-character separator: the pieces between
the separators, one piece for a text without separator (the empty text too). -/
def splitOnChar (sep : Char) : List Char → List (List Char)
  | [] => [[]]
  | c :: cs =>
    if c = sep then [] :: splitOnChar sep cs
    else
      match splitOnChar sep cs with
      | [] => [[c]]
      | piece :: pieces => (c :: piece) :: pieces

/-- The element loop of Go `filepath.Clean` (Unix), on the elements between the
separators: empty elements and `.` are dropped, `..` removes the kept element
before it (at the start of a rooted path it is dropped, at the start of a
relative path it is kept), every other element is kept.  `out` holds the kept
elements in order. -/
def cleanElements (rooted : Bool) : List (List Char) → List (List Char) → List (List Char)
  | [], out => out
  | e :: es, out =>
    if e = [] ∨ e = ['.'] then cleanElements rooted es out
    else if e = ['.', '.'] then
      if out ≠ [] ∧ out.getLast? ≠ some ['.', '.'] then cleanElements rooted es out.dropLast
      else if rooted then cleanElements rooted es out
      else cleanElements rooted es (out ++ [['.', '.']])
    else cleanElements rooted es (out ++ [e])

/-- Go `filepath.Clean` (Unix). -/
def filepathClean (path : List Char) : List Char :=
  let rooted := path.head? == some '/'
  let kept := cleanElements rooted (splitOnChar '/' path) []
  let body := List.intercalate ['/'] kept
  if rooted then '/' :: body
  else if body = [] then ['.'] else body

/-- Go `filepath.Join(a, b)` (Unix): the elements from the first non-empty one
on, joined by the separator and cleaned; the empty string when both are empty. -/
def filepathJoin (a b : String) : String :=
  if a ≠ "" then String.mk (filepathClean (a.data ++ '/' :: b.data))
  else if b ≠ "" then String.mk (filepathClean b.data)
  else ""

/-- The regular files on disk: path and content (bytes), newest entry first.
Directories are not listed: for a directory `fileExists` answers false, and
`os.Create` on it fails, which is the `createErr` outcome below. -/
abbrev Disk := List (String × List Nat)

/-- The content of the file at `path`, if there is one. -/
def diskRead (disk : Disk) (path : String) : Option (List Nat) :=
  (disk.find? (fun entry => entry.1 == path)).map (fun entry => entry.2)

/-- The disk after the file at `path` got the content `content`. -/
def diskWrite (disk : Disk) (path : String) (content : List Nat) : Disk :=
  (path, content) :: disk.filter (fun entry => entry.1 != path)

/-- `fileExists` of main.go: `os.Stat` succeeds and the entry is not a directory. -/
def fileExists (disk : Disk) (filename : String) : Bool :=
  (diskRead disk filename).isSome

/-- What one call of `downloadPDF` meets outside the program, step by step. -/
structure Outcome where
  /-- `http.NewRequest` returned an error. -/
  requestErr : Bool
  /-- `client.Do` returned an error. -/
  sendErr : Bool
  /-- `resp.StatusCode`. -/
  statusCode : Nat
  /-- `resp.Header.Get("Content-Type")`. -/
  contentType : String
  /-- `io.Copy` returned an error. -/
  readErr : Bool
  /-- The bytes `io.Copy` put into the buffer; `written` is their number. -/
  body : List Nat
  /-- `os.Create` returned an error. -/
  createErr : Bool
  /-- `buf.WriteTo` returned an error after writing this many bytes. -/
  writeErr : Option Nat

/-- The destination path `downloadPDF` computes. -/
def destinationPath (finalURL outputDir : String) : String :=
  let filename := String.mk (stringsToLower (urlToFilename finalURL).data)
  filepathJoin outputDir filename

/-- `downloadPDF` of main.go: the returned flag and the disk after the call. -/
def downloadPDF (finalURL outputDir : String) (disk : Disk) (o : Outcome) : Bool × Disk :=
  let filePath := destinationPath finalURL outputDir
  if fileExists disk filePath then (false, disk)
  else if o.requestErr then (false, disk)
  else if o.sendErr then (false, disk)
  else if o.statusCode != 200 then (false, disk)
  else if !stringsContains o.contentType.data "binary/octet-stream".data &&
      !stringsContains o.contentType.data "application/pdf".data then (false, disk)
  else if o.readErr then (false, disk)
  else if o.body.length == 0 then (false, disk)
  else if o.createErr then (false, disk)
  else
    let created := diskWrite disk filePath []
    match o.writeErr with
    | some k => (false, diskWrite created filePath (o.body.take k))
    | none => (true, diskWrite created filePath o.body)

/-! ## Go `net/url`: `url.Parse`, as far as the scheme and the host

Only the fields the program reads are kept (`Scheme` and `Host`); the other
parts of a URL are checked where Go checks them, because a failed check makes
the whole parse fail.  A byte decoded from a `%XX` escape stands as the character
with that code. -/

/-- The parsed URL: the fields of Go `url.URL` that main.go reads. -/
structure URL where
  /-- `URL.Scheme`. -/
  Scheme : String
  /-- `URL.Host`: host or host:port. -/
  Host : String
  deriving DecidableEq

/-- The escaping modes of `net/url` that parsing goes through. -/
inductive Encoding
  | encodePath
  | encodeUserPassword
  | encodeHost
  | encodeZone
  | encodeFragment
  deriving DecidableEq

/-- Go `ishex`. -/
def ishex (c : Char) : Bool :=
  ('0' ≤ c && c ≤ '9') || ('a' ≤ c && c ≤ 'f') || ('A' ≤ c && c ≤ 'F')

/-- Go `unhex`. -/
def unhex (c : Char) : Nat :=
  if '0' ≤ c ∧ c ≤ '9' then c.toNat - 48
  else if 'a' ≤ c ∧ c ≤ 'f' then c.toNat - 97 + 10
  else if 'A' ≤ c ∧ c ≤ 'F' then c.toNat - 65 + 10
  else 0

/-- Go `shouldEscape(c, mode)` of `net/url`, for the modes of `Encoding`. -/
def shouldEscape (c : Char) (mode : Encoding) : Bool :=
  if c.isAlphanum then false
  else if (mode = Encoding.encodeHost ∨ mode = Encoding.encodeZone) ∧
      c ∈ ['!', '$', '&', '\'', '(', ')', '*', '+', ',', ';', '=', ':', '[', ']', '<', '>', '"']
    then false
  else if c ∈ ['-', '_', '.', '~'] then false
  else if c ∈ ['$', '&', '+', ',', '/', ':', ';', '=', '?', '@'] ∧
      mode = Encoding.encodePath then c = '?'
  else if c ∈ ['$', '&', '+', ',', '/', ':', ';', '=', '?', '@'] ∧
      mode = Encoding.encodeUserPassword then c = '@' || c = '/' || c = '?' || c = ':'
  else if c ∈ ['$', '&', '+', ',', '/', ':', ';', '=', '?', '@'] ∧
      mode = Encoding.encodeFragment then false
  else if mode = Encoding.encodeFragment ∧ c ∈ ['!', '(', ')', '*'] then false
  else true

/-- Go `unescape(s, mode)` of `net/url`: `none` for a malformed `%` escape, for
an escape the host or zone does not allow, and for a character the host does
not allow; otherwise the text with the escapes decoded.  Each `%XX` becomes the
one character with code `XX`, where Go produces the byte `XX`: success and
failure are those of Go, and the decoded text is Go's for a text without
escapes of bytes from `0x80` on (escaped multi-byte UTF-8 would come out as one
character per byte). -/
def unescape (mode : Encoding) : List Char → Option (List Char)
  | [] => some []
  | c :: rest =>
    if c = '%' then
      match rest with
      | h1 :: h2 :: rest2 =>
        if ishex h1 && ishex h2 then
          let v := unhex h1 * 16 + unhex h2
          if mode = Encoding.encodeHost ∧ unhex h1 < 8 ∧ ¬(h1 = '2' ∧ h2 = '5') then none
          else if mode = Encoding.encodeZone ∧ ¬(h1 = '2' ∧ h2 = '5') ∧ v ≠ 32 ∧
              shouldEscape (Char.ofNat v) Encoding.encodeHost = true then none
          else (unescape mode rest2).map (fun tail => Char.ofNat v :: tail)
        else none
      | _ => none
    else if (mode = Encoding.encodeHost ∨ mode = Encoding.encodeZone) ∧ c.toNat < 128 ∧
        shouldEscape c Encoding.encodeHost = true then none
    else (unescape mode rest).map (fun tail => c :: tail)

/-- The loop of Go `getScheme`: `i` is the index of the character looked at.
`none` is the error "missing protocol scheme"; otherwise the scheme (empty when
there is none) and the text after it. -/
def getSchemeLoop (rawURL : List Char) : Nat → List Char → Option (List Char × List Char)
  | _, [] => some ([], rawURL)
  | i, c :: cs =>
    if c.isAlpha then getSchemeLoop rawURL (i + 1) cs
    else if c.isDigit || c = '+' || c = '-' || c = '.' then
      if i = 0 then some ([], rawURL) else getSchemeLoop rawURL (i + 1) cs
    else if c = ':' then
      if i = 0 then none else some (rawURL.take i, cs)
    else some ([], rawURL)

/-- Go `getScheme`. -/
def getScheme (rawURL : List Char) : Option (List Char × List Char) :=
  getSchemeLoop rawURL 0 rawURL

/-- Go `validOptionalPort`: empty, or a colon followed by digits only. -/
def validOptionalPort (port : List Char) : Bool :=
  match port with
  | [] => true
  | c :: digits => c = ':' && digits.all (fun b => '0' ≤ b && b ≤ '9')

/-- Go `validUserinfo`. -/
def validUserinfo (s : List Char) : Bool :=
  s.all (fun r => r.isAlphanum ||
    r ∈ ['-', '.', '_', ':', '~', '!', '$', '&', '\'', '(', ')', '*', '+', ',', ';', '=', '%', '@'])

/-- The text before the first occurrence of `sub` and the text from that
occurrence on; `none` when `sub` does not occur (Go `strings.Index`). -/
def splitAtSub (sub : List Char) : List Char → Option (List Char × List Char)
  | [] => if sub = [] then some ([], []) else none
  | c :: cs =>
    if sub.isPrefixOf (c :: cs) then some ([], c :: cs)
    else (splitAtSub sub cs).map (fun found => (c :: found.1, found.2))

/-- Go `parseHost`: the host (with its port) of an authority, unescaped; `none`
on an error.  The checks are those of `net/url` up to Go 1.23: a valid optional
port after the last colon or after the closing bracket, and the characters a
host allows.  Later releases also refuse a bracketed host that is not an IP
address and a colon inside an unbracketed host; those checks are not modelled. -/
def parseHost (host : List Char) : Option (List Char) :=
  if host.head? = some '[' then
    if ']' ∉ host then none
    else
      let colonPort := host.rtakeWhile (fun c => c != ']')
      let upToBracket := (host.rdropWhile (fun c => c != ']')).dropLast
      if !validOptionalPort colonPort then none
      else
        match splitAtSub "%25".data upToBracket with
        | some (address, zone) =>
          match unescape Encoding.encodeHost address, unescape Encoding.encodeZone zone,
            unescape Encoding.encodeHost (']' :: colonPort) with
          | some host1, some host2, some host3 => some (host1 ++ host2 ++ host3)
          | _, _, _ => none
        | none => unescape Encoding.encodeHost host
  else if ':' ∈ host ∧ !validOptionalPort (':' :: host.rtakeWhile (fun c => c != ':')) then none
  else unescape Encoding.encodeHost host

/-- Go `parseAuthority`, as far as the host: the part after the last `@` is the
host; the user information before it has to be valid. -/
def parseAuthority (authority : List Char) : Option (List Char) :=
  if '@' ∈ authority then
    let userinfo := (authority.rdropWhile (fun c => c != '@')).dropLast
    match parseHost (authority.rtakeWhile (fun c => c != '@')) with
    | none => none
    | some host =>
      if !validUserinfo userinfo then none
      else if ':' ∉ userinfo then
        (unescape Encoding.encodeUserPassword userinfo).map (fun _ => host)
      else
        let username := userinfo.takeWhile (fun c => c != ':')
        let password := (userinfo.dropWhile (fun c => c != ':')).drop 1
        match unescape Encoding.encodeUserPassword username,
          unescape Encoding.encodeUserPassword password with
        | some _, some _ => some host
        | _, _ => none
  else parseHost authority

/-- Go `parse(rawURL, false)` of `net/url`, the text before `#`. -/
def parseURL (rawURL : List Char) : Option URL :=
  if rawURL.any (fun c => c.toNat < 32 || c.toNat == 127) then none
  else if rawURL = ['*'] then some (URL.mk "" "")
  else
    match getScheme rawURL with
    | none => none
    | some (scheme, afterScheme) =>
      let scheme := stringsToLower scheme
      let rest := afterScheme.takeWhile (fun c => c != '?')
      if rest.head? ≠ some '/' ∧ scheme ≠ [] then some (URL.mk (String.mk scheme) "")
      else if rest.head? ≠ some '/' ∧ ':' ∈ rest.takeWhile (fun c => c != '/') then none
      else if (scheme ≠ [] ∨ ¬ "///".data <+: rest) ∧ "//".data <+: rest then
        let authority := (rest.drop 2).takeWhile (fun c => c != '/')
        let path := (rest.drop 2).dropWhile (fun c => c != '/')
        match parseAuthority authority with
        | none => none
        | some host =>
          if (unescape Encoding.encodePath path).isSome then
            some (URL.mk (String.mk scheme) (String.mk host))
          else none
      else if (unescape Encoding.encodePath rest).isSome then some (URL.mk (String.mk scheme) "")
      else none

/-- Go `url.Parse`: cut the fragment off at the first `#`, parse the rest, then
check the fragment. -/
def urlParse (rawURL : String) : Option URL :=
  let u := rawURL.data.takeWhile (fun c => c != '#')
  let frag := (rawURL.data.dropWhile (fun c => c != '#')).drop 1
  match parseURL u with
  | none => none
  | some url =>
    if frag = [] then some url
    else if (unescape Encoding.encodeFragment frag).isSome then some url
    else none

/-- Go `URL.Hostname`: the host without a valid port and without the square
brackets of an IP literal. -/
def urlHostname (u : URL) : String :=
  let host := u.Host.data
  let host :=
    if ':' ∈ host ∧ validOptionalPort (':' :: host.rtakeWhile (fun c => c != ':')) then
      (host.rdropWhile (fun c => c != ':')).dropLast
    else host
  if host.head? = some '[' ∧ host.getLast? = some ']' then String.mk (host.drop 1).dropLast
  else String.mk host

/-! ## The URL helpers of `main.go` -/

/-- `hasDomain` of main.go. -/
def hasDomain (rawURL : String) : Bool :=
  match urlParse rawURL with
  | none => false
  | some parsed => parsed.Host != ""

/-- `extractBaseDomain` of main.go. -/
def extractBaseDomain (inputUrl : String) : String :=
  match urlParse inputUrl with
  | none => ""
  | some parsedUrl =>
    let hostName := urlHostname parsedUrl
    let parts := splitOnChar '.' hostName.data
    if parts.length ≥ 2 then String.mk (parts.getD (parts.length - 2) [])
    else hostName

/-! ## Definitions used to state and prove the claims -/

/-- The value of `safe` in `urlToFilename` just before the extension test. -/
def sanitizedStem (rawURL : String) : List Char :=
  dropOccurrences "_pdf".data 0
    (stringsTrim (collapseRuns false (replaceNonAlnum (filepathBase (stringsToLower rawURL.data)))) '_')

/-- No two neighbouring underscores. -/
def NoRun (s : List Char) : Prop :=
  List.Chain' (fun a b => ¬(a = '_' ∧ b = '_')) s

/-- The elements of `xs` that are neither in `seen` nor earlier in `xs`. -/
def keepNew : List String → List String → List String
  | _, [] => []
  | seen, x :: xs => if x ∈ seen then keepNew seen xs else x :: keepNew (x :: seen) xs

/-- The spec's wording of de-duplication: the element at position `i` is kept
exactly when no equal string stands at an earlier position. -/
def firstOccurrences (xs : List String) : List String :=
  (List.range xs.length).filterMap (fun i =>
    match xs[i]? with
    | some x => if x ∈ xs.take i then none else some x
    | none => none)

/-! ## Characters: proof aids -/

theorem char_of_toNat_range (P : Char → Prop) (lo hi : Nat)
    (h : ∀ n, lo ≤ n → n ≤ hi → P (Char.ofNat n)) (c : Char)
    (hlo : lo ≤ c.toNat) (hhi : c.toNat ≤ hi) : P c := by
  have := h c.toNat hlo hhi
  rwa [Char.ofNat_toNat] at this

theorem char_le_iff (a b : Char) : a ≤ b ↔ a.toNat ≤ b.toNat := by
  rw [Char.le_def]; exact Iff.rfl

theorem isLowerAlnum_iff (c : Char) :
    isLowerAlnum c = true ↔ (97 ≤ c.toNat ∧ c.toNat ≤ 122) ∨ (48 ≤ c.toNat ∧ c.toNat ≤ 57) := by
  simp [isLowerAlnum, char_le_iff]

theorem unicodeToLower_of_isLowerAlnum (c : Char) (h : isLowerAlnum c = true) :
    unicodeToLower c = c := by
  rw [isLowerAlnum_iff] at h
  rcases h with ⟨h1, h2⟩ | ⟨h1, h2⟩
  · apply char_of_toNat_range (fun c => unicodeToLower c = c) 97 122 _ c h1 h2
    intro n h1 h2
    interval_cases n <;> decide
  · apply char_of_toNat_range (fun c => unicodeToLower c = c) 48 57 _ c h1 h2
    intro n h1 h2
    interval_cases n <;> decide
/-! ## The sanitiser: proof aids -/

theorem extScan_no_dot (before after : List Char) (h : '.' ∉ before) :
    extScan before after = [] := by
  induction before generalizing after with
  | nil => rfl
  | cons c cs ih =>
    simp only [List.mem_cons, not_or] at h
    have hc : ¬ c = '.' := fun e => h.1 e.symm
    simp [extScan, hc, ih _ h.2]

theorem mem_collapseRuns (b : Bool) (s : List Char) (c : Char)
    (h : c ∈ collapseRuns b s) : c ∈ s := by
  induction s generalizing b with
  | nil => simp [collapseRuns] at h
  | cons d ds ih =>
    unfold collapseRuns at h
    split at h
    · split at h
      · exact List.mem_cons_of_mem _ (ih _ h)
      · rcases List.mem_cons.mp h with h | h
        · simp_all
        · exact List.mem_cons_of_mem _ (ih _ h)
    · rcases List.mem_cons.mp h with h | h
      · simp [h]
      · exact List.mem_cons_of_mem _ (ih _ h)

theorem mem_dropOccurrences (old : List Char) (n : Nat) (s : List Char) (c : Char)
    (h : c ∈ dropOccurrences old n s) : c ∈ s := by
  induction s generalizing n with
  | nil => simp [dropOccurrences] at h
  | cons d ds ih =>
    cases n with
    | succ k =>
      simp only [dropOccurrences] at h
      exact List.mem_cons_of_mem _ (ih _ h)
    | zero =>
      simp only [dropOccurrences] at h
      split at h
      · exact List.mem_cons_of_mem _ (ih _ h)
      · rcases List.mem_cons.mp h with h | h
        · simp [h]
        · exact List.mem_cons_of_mem _ (ih _ h)

theorem mem_stringsTrim (s : List Char) (cut c : Char) (h : c ∈ stringsTrim s cut) : c ∈ s :=
  (List.dropWhile_sublist _).subset ((List.rdropWhile_prefix _ _).sublist.subset h)

theorem mem_replaceNonAlnum (s : List Char) (c : Char) (h : c ∈ replaceNonAlnum s) :
    isLowerAlnum c = true ∨ c = '_' := by
  simp only [replaceNonAlnum, List.mem_map] at h
  obtain ⟨d, -, rfl⟩ := h
  by_cases hd : isLowerAlnum d = true
  · simp [hd]
  · simp [hd]

theorem mem_sanitizedStem (rawURL : String) (c : Char) (h : c ∈ sanitizedStem rawURL) :
    isLowerAlnum c = true ∨ c = '_' :=
  mem_replaceNonAlnum _ c
    (mem_collapseRuns _ _ c (mem_stringsTrim _ _ c (mem_dropOccurrences _ _ _ c h)))

theorem urlToFilename_eq (rawURL : String) :
    urlToFilename rawURL = String.mk (sanitizedStem rawURL ++ ".pdf".data) := by
  have hdot : '.' ∉ sanitizedStem rawURL := by
    intro h
    have := mem_sanitizedStem rawURL '.' h
    revert this
    decide
  have hext : filepathExt (sanitizedStem rawURL) = [] := by
    unfold filepathExt
    exact extScan_no_dot _ _ (by simpa using hdot)
  have hne : getFileExtension (String.mk (sanitizedStem rawURL)) ≠ ".pdf" := by
    simp only [getFileExtension, hext]
    decide
  have hstem : List.foldl (fun acc invalidPre => removeSubstring acc invalidPre)
      (String.mk (stringsTrim (collapseRuns false (replaceNonAlnum
        (filepathBase (stringsToLower rawURL.data)))) '_')) ["_pdf"]
      = String.mk (sanitizedStem rawURL) := by
    simp [removeSubstring, stringsReplaceAllEmpty, sanitizedStem]
  unfold urlToFilename
  simp only [getFilename]
  rw [hstem]
  simp only [bne_iff_ne, ne_eq, hne, not_false_eq_true, if_true]
  rfl
theorem string_mk_append (a b : List Char) : String.mk (a ++ b) = String.mk a ++ String.mk b := by
  apply String.ext
  simp

theorem noRun_collapseRuns (b : Bool) (s : List Char) :
    NoRun (collapseRuns b s) ∧ (b = true → (collapseRuns b s).head? ≠ some '_') := by
  induction s generalizing b with
  | nil => simp [collapseRuns, NoRun]
  | cons c cs ih =>
    unfold collapseRuns
    by_cases hc : c = '_'
    · cases b with
      | true => simpa [hc] using ih true
      | false =>
        simp only [hc, if_true, Bool.false_eq_true, if_false]
        refine ⟨?_, by simp⟩
        have := ih true
        unfold NoRun at this ⊢
        rw [List.chain'_cons']
        refine ⟨?_, this.1⟩
        intro y hy
        have h2 := this.2 rfl
        intro hh
        apply h2
        rw [Option.mem_def] at hy
        rw [hy, hh.2]
    · simp only [hc, if_false]
      refine ⟨?_, by simp [hc]⟩
      unfold NoRun
      rw [List.chain'_cons']
      exact ⟨fun y _ hh => hc hh.1, (ih false).1⟩

theorem noRun_stringsTrim (s : List Char) (h : NoRun s) : NoRun (stringsTrim s '_') := by
  unfold NoRun stringsTrim at *
  exact List.Chain'.prefix (h.suffix (List.dropWhile_suffix _)) (List.rdropWhile_prefix _ _)

theorem head_stringsTrim (s : List Char) : (stringsTrim s '_').head? ≠ some '_' := by
  unfold stringsTrim
  intro h
  have hpre := List.rdropWhile_prefix (fun c => c == '_') (List.dropWhile (fun c => c == '_') s)
  obtain ⟨t, ht⟩ := hpre
  cases hd : List.rdropWhile (fun c => c == '_') (List.dropWhile (fun c => c == '_') s) with
  | nil => simp [hd] at h
  | cons x xs =>
    rw [hd] at h ht
    simp only [List.head?_cons, Option.some.injEq] at h
    subst h
    have h0 := List.head?_dropWhile_not (fun c => c == '_') s
    rw [← ht] at h0
    simp at h0

theorem getLast_stringsTrim (s : List Char) : (stringsTrim s '_').getLast? ≠ some '_' := by
  unfold stringsTrim
  intro h
  by_cases hl : List.rdropWhile (fun c => c == '_') (List.dropWhile (fun c => c == '_') s) = []
  · simp [hl] at h
  · have := List.rdropWhile_last_not (fun c => c == '_') _ hl
    rw [List.getLast?_eq_getLast _ hl] at h
    simp only [Option.some.injEq] at h
    simp [h] at this
theorem dropOccurrences_skip (old : List Char) (n : Nat) (s : List Char) :
    dropOccurrences old n s = dropOccurrences old 0 (s.drop n) := by
  induction s generalizing n with
  | nil => simp [dropOccurrences]
  | cons c cs ih =>
    cases n with
    | zero => rfl
    | succ k => simp only [dropOccurrences, List.drop_succ_cons]; exact ih k

theorem dropOccurrences_keep (old : List Char) (c : Char) (cs : List Char)
    (h : ¬ old <+: c :: cs) :
    dropOccurrences old 0 (c :: cs) = c :: dropOccurrences old 0 cs := by
  have : old.isPrefixOf (c :: cs) = false := by
    rw [Bool.eq_false_iff]
    intro hp
    exact h (List.isPrefixOf_iff_prefix.mp hp)
  simp [dropOccurrences, this]

theorem dropOccurrences_drop (old rest : List Char) (hold : old ≠ []) :
    dropOccurrences old 0 (old ++ rest) = dropOccurrences old 0 rest := by
  cases old with
  | nil => exact absurd rfl hold
  | cons o os =>
    have : (o :: os).isPrefixOf (o :: (os ++ rest)) = true :=
      List.isPrefixOf_iff_prefix.mpr ⟨rest, rfl⟩
    simp only [List.cons_append, dropOccurrences, this, if_true, List.length_cons,
      Nat.add_sub_cancel]
    rw [dropOccurrences_skip]
    simp

/-- Induction along the scan of `dropOccurrences`: a kept character, or a dropped
occurrence. -/
theorem dropOccurrences_induction (old : List Char) (hold : old ≠ []) (P : List Char → Prop)
    (hnil : P [])
    (hkeep : ∀ c cs, ¬ old <+: c :: cs → P cs → P (c :: cs))
    (hdrop : ∀ rest, P rest → P (old ++ rest)) : ∀ s, P s := by
  have key : ∀ n (s : List Char), s.length = n → P s := by
    intro n
    induction n using Nat.strong_induction_on with
    | _ n ih =>
      intro s hn
      cases s with
      | nil => exact hnil
      | cons c cs =>
        by_cases hp : old <+: c :: cs
        · obtain ⟨rest, hrest⟩ := hp
          rw [← hrest]
          apply hdrop
          apply ih rest.length _ rest rfl
          have : (old ++ rest).length = n := by rw [hrest]; exact hn
          have hpos : 0 < old.length := List.length_pos.mpr hold
          simp only [List.length_append] at this
          omega
        · apply hkeep c cs hp
          apply ih cs.length _ cs rfl
          simp only [List.length_cons] at hn
          omega
  exact fun s => key s.length s rfl

theorem head_dropOccurrences (s : List Char)
    (h : (dropOccurrences "_pdf".data 0 s).head? = some '_') : s.head? = some '_' := by
  cases s with
  | nil => simp [dropOccurrences] at h
  | cons c cs =>
    by_cases hp : "_pdf".data <+: c :: cs
    · obtain ⟨rest, hrest⟩ := hp
      simp only [List.cons_append, List.cons.injEq] at hrest
      simp [← hrest.1]
    · rw [dropOccurrences_keep _ _ _ hp] at h
      exact h

theorem dropOccurrences_eq_nil (s : List Char)
    (h : dropOccurrences "_pdf".data 0 s = []) : s = [] ∨ s.head? = some '_' := by
  cases s with
  | nil => exact Or.inl rfl
  | cons c cs =>
    by_cases hp : "_pdf".data <+: c :: cs
    · obtain ⟨rest, hrest⟩ := hp
      simp only [List.cons_append, List.cons.injEq] at hrest
      simp [← hrest.1]
    · rw [dropOccurrences_keep _ _ _ hp] at h
      simp at h

theorem noRun_dropOccurrences (s : List Char) :
    NoRun s → s.getLast? ≠ some '_' →
      NoRun (dropOccurrences "_pdf".data 0 s) ∧
        (dropOccurrences "_pdf".data 0 s).getLast? ≠ some '_' := by
  apply dropOccurrences_induction "_pdf".data (by decide)
    (fun s => NoRun s → s.getLast? ≠ some '_' →
      NoRun (dropOccurrences "_pdf".data 0 s) ∧
        (dropOccurrences "_pdf".data 0 s).getLast? ≠ some '_')
  · intro _ _
    simp [dropOccurrences, NoRun]
  · intro c cs hp ih hrun hlast
    rw [dropOccurrences_keep _ _ _ hp]
    have hrun' : NoRun cs := by
      unfold NoRun at hrun ⊢
      exact hrun.tail
    have hlast' : cs.getLast? ≠ some '_' := by
      cases cs with
      | nil => simp
      | cons d ds => simpa [List.getLast?_cons_cons] using hlast
    obtain ⟨h1, h2⟩ := ih hrun' hlast'
    have hneck : cs.head? = some '_' → c ≠ '_' := by
      intro hh hc
      unfold NoRun at hrun
      rw [List.chain'_cons'] at hrun
      exact hrun.1 '_' (by simp [hh]) ⟨hc, rfl⟩
    constructor
    · unfold NoRun at h1 ⊢
      rw [List.chain'_cons']
      refine ⟨?_, h1⟩
      intro y hy hh
      rw [Option.mem_def] at hy
      rw [hh.2] at hy
      exact hneck (head_dropOccurrences cs hy) hh.1
    · cases hd : dropOccurrences "_pdf".data 0 cs with
      | nil =>
        simp only [List.getLast?_singleton, ne_eq, Option.some.injEq]
        rcases dropOccurrences_eq_nil cs hd with h | h
        · subst h
          simpa using hlast
        · exact hneck h
      | cons d ds =>
        rw [hd] at h2
        simpa [List.getLast?_cons_cons] using h2
  · intro rest ih hrun hlast
    rw [dropOccurrences_drop _ _ (by decide)]
    apply ih
    · unfold NoRun at hrun ⊢
      exact hrun.suffix (List.suffix_append _ _)
    · cases rest with
      | nil => simp
      | cons d ds =>
        intro h
        apply hlast
        rw [List.getLast?_append_of_ne_nil _ (by simp)]
        exact h

theorem noRun_not_infix (s : List Char) (h : NoRun s) : ¬ "__".data <:+: s := by
  intro hi
  unfold NoRun at h
  have := h.infix hi
  simp [List.chain'_cons'] at this
/-! ## The claims about `urlToFilename` -/

/-- C1: for every input string (the empty one, non-ASCII ones and slash-only ones
included) `urlToFilename` returns a non-empty string `stem ++ ".pdf"` in which
every character of `stem` is one of a-z, 0-9 or `_`; the result is already
lower case (`strings.ToLower` leaves it unchanged). -/
theorem urlToFilename_charset (rawURL : String) :
    urlToFilename rawURL ≠ "" ∧
    (∃ stem : String, urlToFilename rawURL = stem ++ ".pdf" ∧
      ∀ c ∈ stem.data, ('a' ≤ c ∧ c ≤ 'z') ∨ ('0' ≤ c ∧ c ≤ '9') ∨ c = '_') ∧
    String.mk (stringsToLower (urlToFilename rawURL).data) = urlToFilename rawURL := by
  rw [urlToFilename_eq]
  refine ⟨?_, ⟨String.mk (sanitizedStem rawURL), string_mk_append _ _, ?_⟩, ?_⟩
  · intro h
    have := congrArg String.length h
    simp [String.length] at this
  · intro c hc
    rcases mem_sanitizedStem rawURL c hc with h | h
    · simp only [isLowerAlnum, Bool.or_eq_true, Bool.and_eq_true, decide_eq_true_eq] at h
      rcases h with h | h
      · exact Or.inl h
      · exact Or.inr (Or.inl h)
    · exact Or.inr (Or.inr h)
  · congr 1
    simp only [stringsToLower, List.map_append]
    have hstem : (sanitizedStem rawURL).map unicodeToLower = (sanitizedStem rawURL).map id := by
      apply List.map_congr_left
      intro c hc
      rcases mem_sanitizedStem rawURL c hc with h | h
      · exact unicodeToLower_of_isLowerAlnum c h
      · subst h
        decide
    rw [hstem, List.map_id]
    rfl

/-- C2: for every input string, the part of `urlToFilename`'s result before the
final `.pdf` contains no two consecutive underscores and neither starts nor ends
with an underscore. -/
theorem urlToFilename_underscores (rawURL : String) :
    ∃ stem : String, urlToFilename rawURL = stem ++ ".pdf" ∧
      ¬ "__".data <:+: stem.data ∧
      stem.data.head? ≠ some '_' ∧
      stem.data.getLast? ≠ some '_' := by
  refine ⟨String.mk (sanitizedStem rawURL), ?_, ?_, ?_, ?_⟩
  · rw [urlToFilename_eq]
    exact string_mk_append _ _
  all_goals
    have hc := (noRun_collapseRuns false
      (replaceNonAlnum (filepathBase (stringsToLower rawURL.data)))).1
    have ht := noRun_stringsTrim _ hc
    have hl := getLast_stringsTrim
      (collapseRuns false (replaceNonAlnum (filepathBase (stringsToLower rawURL.data))))
    have hh := head_stringsTrim
      (collapseRuns false (replaceNonAlnum (filepathBase (stringsToLower rawURL.data))))
    have hd := noRun_dropOccurrences _ ht hl
  · exact noRun_not_infix _ hd.1
  · exact fun h => hh (head_dropOccurrences _ h)
  · exact hd.2
/-! ## De-duplication: proof aids -/

theorem removeDuplicatesLoop_eq (check : String → Bool) (seen acc xs : List String)
    (h : ∀ k, check k = true ↔ k ∈ seen) :
    removeDuplicatesLoop check acc xs = acc ++ keepNew seen xs := by
  induction xs generalizing check seen acc with
  | nil => simp [removeDuplicatesLoop, keepNew]
  | cons x xs ih =>
    unfold removeDuplicatesLoop keepNew
    by_cases hx : x ∈ seen
    · have hc : check x = true := (h x).mpr hx
      simp only [hc, hx, if_true, Bool.not_true, Bool.false_eq_true, if_false]
      exact ih check seen acc h
    · have hc : check x = false := by
        rw [Bool.eq_false_iff]
        exact fun hh => hx ((h x).mp hh)
      simp only [hc, hx, if_false, Bool.not_false, if_true]
      rw [ih _ (x :: seen) (acc ++ [x])]
      · simp
      · intro k
        by_cases hk : k = x
        · simp [hk]
        · simp [hk, h k]

theorem removeDuplicatesFromSlice_eq (xs : List String) :
    removeDuplicatesFromSlice xs = keepNew [] xs := by
  unfold removeDuplicatesFromSlice
  rw [removeDuplicatesLoop_eq _ [] [] xs (by simp)]
  simp

theorem mem_keepNew (seen xs : List String) (s : String) :
    s ∈ keepNew seen xs ↔ s ∈ xs ∧ s ∉ seen := by
  induction xs generalizing seen with
  | nil => simp [keepNew]
  | cons x xs ih =>
    unfold keepNew
    by_cases hx : x ∈ seen
    · simp only [hx, if_true, ih, List.mem_cons]
      constructor
      · exact fun h => ⟨Or.inr h.1, h.2⟩
      · rintro ⟨h1 | h1, h2⟩
        · exact absurd (h1 ▸ hx) h2
        · exact ⟨h1, h2⟩
    · simp only [hx, if_false, List.mem_cons, ih, not_or]
      constructor
      · rintro (h | ⟨h1, h2, h3⟩)
        · exact ⟨Or.inl h, h ▸ hx⟩
        · exact ⟨Or.inr h1, h3⟩
      · rintro ⟨h1 | h1, h2⟩
        · exact Or.inl h1
        · by_cases hs : s = x
          · exact Or.inl hs
          · exact Or.inr ⟨h1, hs, h2⟩

theorem nodup_keepNew (seen xs : List String) : (keepNew seen xs).Nodup := by
  induction xs generalizing seen with
  | nil => simp [keepNew]
  | cons x xs ih =>
    unfold keepNew
    by_cases hx : x ∈ seen
    · simpa [hx] using ih seen
    · simp only [hx, if_false, List.nodup_cons]
      exact ⟨fun h => by simp [mem_keepNew] at h, ih _⟩

theorem keepNew_of_nodup (seen xs : List String) (hn : xs.Nodup) (hs : ∀ x ∈ xs, x ∉ seen) :
    keepNew seen xs = xs := by
  induction xs generalizing seen with
  | nil => rfl
  | cons x xs ih =>
    unfold keepNew
    have hx : x ∉ seen := hs x (List.mem_cons_self _ _)
    rw [List.nodup_cons] at hn
    simp only [hx, if_false, List.cons.injEq, true_and]
    apply ih _ hn.2
    intro y hy
    simp only [List.mem_cons, not_or]
    exact ⟨fun e => hn.1 (e ▸ hy), hs y (List.mem_cons_of_mem _ hy)⟩

theorem keepNew_eq_filterMap (seen xs : List String) :
    keepNew seen xs = (List.range xs.length).filterMap (fun i =>
      match xs[i]? with
      | some x => if x ∈ seen ∨ x ∈ xs.take i then none else some x
      | none => none) := by
  induction xs generalizing seen with
  | nil => simp [keepNew]
  | cons x xs ih =>
    unfold keepNew
    rw [List.length_cons, List.range_succ_eq_map, List.filterMap_cons, List.filterMap_map]
    by_cases hx : x ∈ seen
    · simp only [hx, if_true, List.getElem?_cons_zero, true_or]
      rw [ih seen]
      apply List.filterMap_congr
      intro i _
      simp only [Function.comp, List.getElem?_cons_succ, List.take_succ_cons, List.mem_cons]
      cases hi : xs[i]? with
      | none => rfl
      | some y =>
        simp only
        by_cases hy : y = x
        · subst hy; simp [hx]
        · simp [hy]
    · simp only [hx, if_false, List.getElem?_cons_zero, List.take_zero, List.not_mem_nil,
        or_self]
      rw [ih (x :: seen)]
      congr 1
      apply List.filterMap_congr
      intro i _
      simp only [Function.comp, List.getElem?_cons_succ, List.take_succ_cons, List.mem_cons]
      cases hi : xs[i]? with
      | none => rfl
      | some y =>
        simp only
        by_cases hy : y = x
        · subst hy; simp
        · simp [hy]
theorem sublist_keepNew (seen xs : List String) : (keepNew seen xs).Sublist xs := by
  induction xs generalizing seen with
  | nil => simp [keepNew]
  | cons x xs ih =>
    unfold keepNew
    by_cases hx : x ∈ seen
    · simpa [hx] using (ih seen).cons x
    · simpa [hx] using (ih (x :: seen))

/-! ## The claims about `removeDuplicatesFromSlice` -/

/-- C4: for every list `xs` of strings, `removeDuplicatesFromSlice xs` is exactly
the list of first occurrences of `xs` (the element at position `i` is kept if and
only if no equal string stands at an earlier position); so the output has no
repeated element, contains exactly the strings that occur in `xs`, and lists them
in their order in `xs`.  Equality is exact: `["a.pdf", "A.PDF"]` comes back
unchanged. -/
theorem removeDuplicatesFromSlice_first_occurrences (xs : List String) :
    removeDuplicatesFromSlice xs = firstOccurrences xs ∧
    (removeDuplicatesFromSlice xs).Nodup ∧
    (∀ s, s ∈ removeDuplicatesFromSlice xs ↔ s ∈ xs) ∧
    (removeDuplicatesFromSlice xs).Sublist xs ∧
    removeDuplicatesFromSlice ["a.pdf", "A.PDF"] = ["a.pdf", "A.PDF"] := by
  rw [removeDuplicatesFromSlice_eq]
  refine ⟨?_, nodup_keepNew _ _, ?_, sublist_keepNew _ _, by decide⟩
  · rw [keepNew_eq_filterMap]
    simp [firstOccurrences]
  · intro s
    simp [mem_keepNew]

/-- C5: `removeDuplicatesFromSlice` is idempotent. -/
theorem removeDuplicatesFromSlice_idempotent (xs : List String) :
    removeDuplicatesFromSlice (removeDuplicatesFromSlice xs) = removeDuplicatesFromSlice xs := by
  rw [removeDuplicatesFromSlice_eq xs, removeDuplicatesFromSlice_eq]
  exact keepNew_of_nodup [] _ (nodup_keepNew _ _) (by simp)
/-! ## The regular expression: proof aids -/

theorem matchLiteral_eq_some (lit s r : List Char) :
    matchLiteral lit s = some r ↔ s = lit ++ r := by
  induction lit generalizing s with
  | nil => simp [matchLiteral, eq_comm]
  | cons l ls ih =>
    cases s with
    | nil => simp [matchLiteral]
    | cons c cs =>
      by_cases h : l = c
      · simp [matchLiteral, h, ih]
      · have h2 : ¬ c = l := fun e => h e.symm
        simp [matchLiteral, h, h2]

theorem matchLiteral_append (lit r : List Char) : matchLiteral lit (lit ++ r) = some r :=
  (matchLiteral_eq_some lit _ r).mpr rfl

theorem matchStar_cons_pos {α : Type} (k : List Char → List Char → Option α)
    (taken : List Char) (c : Char) (cs : List Char) (h : notQuote c = true) :
    matchStar k taken (c :: cs)
      = (matchStar k (taken ++ [c]) cs).orElse (fun _ => k taken (c :: cs)) := by
  simp only [matchStar, h, if_true]
  cases matchStar k (taken ++ [c]) cs <;> rfl

theorem matchStar_cons_neg {α : Type} (k : List Char → List Char → Option α)
    (taken : List Char) (c : Char) (cs : List Char) (h : notQuote c = false) :
    matchStar k taken (c :: cs) = k taken (c :: cs) := by
  simp [matchStar, h]

theorem notQuote_quote : notQuote '"' = false := by decide

theorem notQuote_pdf : ∀ c ∈ ".pdf".data, notQuote c = true := by decide

/-- The inner repetition runs up to the closing quote. -/
theorem matchStar_close (front w acc rest : List Char) (hw : ∀ c ∈ w, notQuote c = true) :
    matchStar (matchClose front) acc (w ++ '"' :: rest)
      = some (front ++ ".pdf".data ++ (acc ++ w), rest) := by
  induction w generalizing acc with
  | nil =>
    rw [List.nil_append, matchStar_cons_neg _ _ _ _ notQuote_quote]
    simp [matchClose, matchLiteral]
  | cons c cs ih =>
    have hc : notQuote c = true := hw c (List.mem_cons_self _ _)
    rw [List.cons_append, matchStar_cons_pos _ _ _ _ hc,
      ih (acc ++ [c]) (fun d hd => hw d (List.mem_cons_of_mem _ hd))]
    simp

theorem matchPdf_sound (acc u rest : List Char) (r : List Char × List Char)
    (hu : ∀ c ∈ u, notQuote c = true)
    (h : matchPdf acc (u ++ '"' :: rest) = some r) :
    ∃ y, u = ".pdf".data ++ y ∧ r = (acc ++ u, rest) := by
  unfold matchPdf at h
  cases hm : matchLiteral ".pdf".data (u ++ '"' :: rest) with
  | none => simp [hm] at h
  | some r2 =>
    rw [hm] at h
    simp only at h
    rw [matchLiteral_eq_some, List.append_eq_append_iff] at hm
    have key : ∃ y, u = ".pdf".data ++ y ∧ r2 = y ++ '"' :: rest := by
      rcases hm with ⟨a, ha, hb⟩ | ⟨b, hb, hr⟩
      · cases a with
        | nil => exact ⟨[], by simpa using ha.symm, by simpa using hb.symm⟩
        | cons d ds =>
          exfalso
          simp only [List.cons_append, List.cons.injEq] at hb
          have hq : '"' ∈ ".pdf".data := by
            rw [ha, hb.1]
            simp
          revert hq
          decide
      · exact ⟨b, hb, hr⟩
    obtain ⟨y, hy, hr⟩ := key
    refine ⟨y, hy, ?_⟩
    subst hr
    rw [matchStar_close] at h
    · simp only [Option.some.injEq] at h
      rw [← h, hy]
      simp
    · intro c hc
      exact hu c (by rw [hy]; exact List.mem_append_right _ hc)

/-- A successful match of the outer repetition takes the whole run up to the quote. -/
theorem matchStar_pdf_sound (u acc rest : List Char) (r : List Char × List Char)
    (hu : ∀ c ∈ u, notQuote c = true)
    (h : matchStar matchPdf acc (u ++ '"' :: rest) = some r) :
    r = (acc ++ u, rest) := by
  induction u generalizing acc with
  | nil =>
    rw [List.nil_append, matchStar_cons_neg _ _ _ _ notQuote_quote] at h
    obtain ⟨y, hy, hr⟩ := matchPdf_sound acc [] rest r (by simp) (by simpa using h)
    exact hr
  | cons c cs ih =>
    have hc : notQuote c = true := hu c (List.mem_cons_self _ _)
    rw [List.cons_append, matchStar_cons_pos _ _ _ _ hc] at h
    cases hm : matchStar matchPdf (acc ++ [c]) (cs ++ '"' :: rest) with
    | some r2 =>
      rw [hm] at h
      simp only [Option.orElse, Option.some.injEq] at h
      subst h
      rw [ih (acc ++ [c]) (fun d hd => hu d (List.mem_cons_of_mem _ hd)) hm]
      simp
    | none =>
      rw [hm] at h
      simp only [Option.orElse] at h
      obtain ⟨y, hy, hr⟩ := matchPdf_sound acc (c :: cs) rest r hu (by simpa using h)
      exact hr

/-- The outer repetition succeeds on a run that holds `.pdf`. -/
theorem matchStar_pdf_complete (x y acc rest : List Char)
    (hx : ∀ c ∈ x, notQuote c = true) (hy : ∀ c ∈ y, notQuote c = true) :
    matchStar matchPdf acc (x ++ ".pdf".data ++ y ++ '"' :: rest)
      = some (acc ++ (x ++ ".pdf".data ++ y), rest) := by
  induction x generalizing acc with
  | nil =>
    have hu : ∀ c ∈ ".pdf".data ++ y, notQuote c = true := by
      intro c hc
      rcases List.mem_append.mp hc with h | h
      · exact notQuote_pdf c h
      · exact hy c h
    rw [List.nil_append]
    cases hm : matchStar matchPdf acc (".pdf".data ++ y ++ '"' :: rest) with
    | some r =>
      rw [matchStar_pdf_sound _ acc rest r hu hm]
    | none =>
      exfalso
      have hd : notQuote '.' = true := by decide
      have e : ".pdf".data ++ y ++ '"' :: rest
          = '.' :: ("pdf".data ++ y ++ '"' :: rest) := rfl
      rw [e, matchStar_cons_pos _ _ _ _ hd] at hm
      cases hm2 : matchStar matchPdf (acc ++ ['.']) ("pdf".data ++ y ++ '"' :: rest) with
      | some r2 => rw [hm2] at hm; simp [Option.orElse] at hm
      | none =>
        rw [hm2] at hm
        simp only [Option.orElse] at hm
        have e2 : '.' :: ("pdf".data ++ y ++ '"' :: rest)
            = ".pdf".data ++ (y ++ '"' :: rest) := by simp
        rw [e2] at hm
        unfold matchPdf at hm
        rw [matchLiteral_append] at hm
        simp only at hm
        rw [matchStar_close _ _ _ _ hy] at hm
        simp at hm
  | cons c cs ih =>
    have hc : notQuote c = true := hx c (List.mem_cons_self _ _)
    have := ih (acc ++ [c]) (fun d hd => hx d (List.mem_cons_of_mem _ hd))
    rw [List.cons_append, List.cons_append, List.cons_append,
      matchStar_cons_pos _ _ _ _ hc, this]
    simp [Option.orElse]
theorem matchHref_head_ne (c : Char) (cs : List Char) (h : c ≠ 'h') :
    matchHref (c :: cs) = none := by
  have h2 : ¬ 'h' = c := fun e => h e.symm
  simp [matchHref, matchLiteral, h2]

/-- On `href="v"` followed by anything, where `v` has no quote and has the shape
`x ++ ".pdf" ++ y` with `x` non-empty, the pattern matches with group 1 equal to `v`. -/
theorem matchHref_value (x y rest : List Char) (hx0 : x ≠ [])
    (hx : ∀ c ∈ x, notQuote c = true) (hy : ∀ c ∈ y, notQuote c = true) :
    matchHref ("href=\"".data ++ (x ++ ".pdf".data ++ y) ++ '"' :: rest)
      = some (x ++ ".pdf".data ++ y, rest) := by
  cases x with
  | nil => exact absurd rfl hx0
  | cons c cs =>
    unfold matchHref
    rw [List.append_assoc, matchLiteral_append]
    have hc : notQuote c = true := hx c (List.mem_cons_self _ _)
    simp only [List.cons_append, hc, if_true]
    have := matchStar_pdf_complete cs y [c] rest
      (fun d hd => hx d (List.mem_cons_of_mem _ hd)) hy
    simp only [List.append_assoc, List.cons_append, List.nil_append] at this ⊢
    exact this

theorem findAllSubmatch_skip (n : Nat) (s : List Char) :
    findAllSubmatch n s = findAllSubmatch 0 (s.drop n) := by
  induction s generalizing n with
  | nil => simp [findAllSubmatch]
  | cons c cs ih =>
    cases n with
    | zero => rfl
    | succ k => simp only [findAllSubmatch, List.drop_succ_cons]; exact ih k

theorem findAllSubmatch_none (c : Char) (cs : List Char) (h : matchHref (c :: cs) = none) :
    findAllSubmatch 0 (c :: cs) = findAllSubmatch 0 cs := by
  simp [findAllSubmatch, h]

theorem findAllSubmatch_some (whole rest group : List Char) (hw : whole ≠ [])
    (h : matchHref (whole ++ rest) = some (group, rest)) :
    findAllSubmatch 0 (whole ++ rest) = [whole, group] :: findAllSubmatch 0 rest := by
  cases whole with
  | nil => exact absurd rfl hw
  | cons c cs =>
    rw [List.cons_append] at h ⊢
    simp only [findAllSubmatch, h]
    have e : (c :: (cs ++ rest)).length - rest.length = (c :: cs).length := by
      simp only [List.length_cons, List.length_append]
      omega
    rw [e, findAllSubmatch_skip]
    have e2 : List.take (c :: cs).length (c :: (cs ++ rest)) = c :: cs := by
      rw [← List.cons_append]
      exact List.take_left' rfl
    rw [e2]
    simp

theorem extractPDFUrls_eq (htmlContent : String) :
    extractPDFUrls htmlContent = (findAllSubmatch 0 htmlContent.data).filterMap (fun m =>
      match m with
      | _ :: group :: _ => some (String.mk group)
      | _ => none) := by
  unfold extractPDFUrls
  have key : ∀ (ms : List (List (List Char))) (acc : List String),
      ms.foldl (fun pdfURLs m =>
        match m with
        | _ :: group :: _ => pdfURLs ++ [String.mk group]
        | _ => pdfURLs) acc
      = acc ++ ms.filterMap (fun m =>
        match m with
        | _ :: group :: _ => some (String.mk group)
        | _ => none) := by
    intro ms
    induction ms with
    | nil => simp
    | cons m ms ih =>
      intro acc
      rw [List.foldl_cons, ih, List.filterMap_cons]
      match m with
      | [] => simp
      | [_] => simp
      | _ :: g :: _ => simp
  simpa using key (findAllSubmatch 0 htmlContent.data) []
theorem findAllSubmatch_tag (x y rest : List Char) (hx0 : x ≠ [])
    (hx : ∀ c ∈ x, notQuote c = true) (hy : ∀ c ∈ y, notQuote c = true) :
    findAllSubmatch 0 ("<a href=\"".data ++ (x ++ ".pdf".data ++ y) ++ "\">".data ++ rest)
      = ["href=\"".data ++ (x ++ ".pdf".data ++ y) ++ ['"'], x ++ ".pdf".data ++ y]
          :: findAllSubmatch 0 rest := by
  have e : "<a href=\"".data ++ (x ++ ".pdf".data ++ y) ++ "\">".data ++ rest
      = '<' :: 'a' :: ' ' :: (("href=\"".data ++ (x ++ ".pdf".data ++ y) ++ ['"'])
          ++ ('>' :: rest)) := by
    simp
  rw [e, findAllSubmatch_none _ _ (matchHref_head_ne _ _ (by decide)),
    findAllSubmatch_none _ _ (matchHref_head_ne _ _ (by decide)),
    findAllSubmatch_none _ _ (matchHref_head_ne _ _ (by decide)),
    findAllSubmatch_some _ _ (x ++ ".pdf".data ++ y) (by simp),
    findAllSubmatch_none _ _ (matchHref_head_ne _ _ (by decide))]
  have := matchHref_value x y ('>' :: rest) hx0 hx hy
  simp only [List.append_assoc, List.cons_append, List.nil_append] at this ⊢
  exact this

/-! ## The claims about `extractPDFUrls` -/

/-- C3: for every list `vs` of strings in which each value contains no
double-quote character and has the shape (one or more characters) ++ ".pdf" ++
(zero or more characters), `extractPDFUrls` applied to the concatenation of the
tags `<a href="` ++ v ++ `">` for `v` in `vs` returns exactly `vs`: the same
values, in textual order, duplicates kept. -/
theorem extractPDFUrls_tags (vs : List String)
    (h : ∀ v ∈ vs, '"' ∉ v.data ∧ ∃ x y : String, x ≠ "" ∧ v = x ++ ".pdf" ++ y) :
    extractPDFUrls (String.join (vs.map (fun v => "<a href=\"" ++ v ++ "\">"))) = vs := by
  rw [extractPDFUrls_eq, String.data_join]
  induction vs with
  | nil => simp [findAllSubmatch]
  | cons v vs ih =>
    obtain ⟨hq, x, y, hx0, hv⟩ := h v (List.mem_cons_self _ _)
    have hnq : ∀ c ∈ v.data, notQuote c = true := by
      intro c hc
      simp only [notQuote, bne_iff_ne, ne_eq]
      exact fun e => hq (e ▸ hc)
    have hvd : v.data = x.data ++ ".pdf".data ++ y.data := by
      rw [hv]
      simp
    have hx0' : x.data ≠ [] := fun e => hx0 (String.ext e)
    have hx : ∀ c ∈ x.data, notQuote c = true := fun c hc =>
      hnq c (by rw [hvd]; simp [hc])
    have hy : ∀ c ∈ y.data, notQuote c = true := fun c hc =>
      hnq c (by rw [hvd]; simp [hc])
    have e : (List.map String.data
        (List.map (fun v => "<a href=\"" ++ v ++ "\">") (v :: vs))).flatten
        = "<a href=\"".data ++ (x.data ++ ".pdf".data ++ y.data) ++ "\">".data
          ++ (List.map String.data
            (List.map (fun v => "<a href=\"" ++ v ++ "\">") vs)).flatten := by
      simp [hvd]
    rw [e, findAllSubmatch_tag _ _ _ hx0' hx hy, List.filterMap_cons]
    simp only
    rw [ih (fun w hw => h w (List.mem_cons_of_mem _ hw)), ← hvd]

theorem extractPDFUrls_tags_witness :
    (∀ v ∈ ["/a.pdf", "b.pdf?x=1", "/a.pdf"],
      '"' ∉ v.data ∧ ∃ x y : String, x ≠ "" ∧ v = x ++ ".pdf" ++ y) ∧
    extractPDFUrls (String.join
      (["/a.pdf", "b.pdf?x=1", "/a.pdf"].map (fun v => "<a href=\"" ++ v ++ "\">")))
      = ["/a.pdf", "b.pdf?x=1", "/a.pdf"] :=
  have hyp : ∀ v ∈ ["/a.pdf", "b.pdf?x=1", "/a.pdf"],
      '"' ∉ v.data ∧ ∃ x y : String, x ≠ "" ∧ v = x ++ ".pdf" ++ y := by
    intro v hv
    simp only [List.mem_cons, List.mem_singleton, List.not_mem_nil, or_false] at hv
    rcases hv with rfl | rfl | rfl
    · exact ⟨by decide, "/a", "", by decide, by decide⟩
    · exact ⟨by decide, "b", "?x=1", by decide, by decide⟩
    · exact ⟨by decide, "/a", "", by decide, by decide⟩
  ⟨hyp, extractPDFUrls_tags _ hyp⟩
/-! ## Lower-casing and the last path element: proof aids -/

theorem toLower_cases (c : Char) :
    c.toLower = c ∨ (65 ≤ c.toNat ∧ c.toNat ≤ 90 ∧ c.toLower = Char.ofNat (c.toNat + 32)) := by
  by_cases h : c.toNat ≥ 65 ∧ c.toNat ≤ 90
  · right
    refine ⟨h.1, h.2, ?_⟩
    unfold Char.toLower
    simp only [h, and_self, if_true]
  · left
    unfold Char.toLower
    simp only [h, if_false]

theorem unicodeToLower_slash (c : Char) (h : unicodeToLower c = '/') : c = '/' := by
  unfold unicodeToLower at h
  split at h
  · exact absurd h (by decide)
  · split at h
    · exact absurd h (by decide)
    · rcases toLower_cases c with e | ⟨h1, h2, e⟩
      · rw [← e]; exact h
      · exfalso
        rw [e] at h
        revert h
        generalize c.toNat = n at h1 h2
        interval_cases n <;> decide

theorem unicodeToLower_of_isAlphanum (c : Char) (h : c.isAlphanum = true) :
    unicodeToLower c = c.toLower ∧ isLowerAlnum c.toLower = true := by
  have hr : (65 ≤ c.toNat ∧ c.toNat ≤ 90) ∨ (97 ≤ c.toNat ∧ c.toNat ≤ 122)
      ∨ (48 ≤ c.toNat ∧ c.toNat ≤ 57) := by
    simp only [Char.isAlphanum, Char.isAlpha, Char.isUpper, Char.isLower, Char.isDigit,
      Bool.or_eq_true, Bool.and_eq_true, decide_eq_true_eq, ge_iff_le] at h
    rcases h with (⟨h1, h2⟩ | ⟨h1, h2⟩) | ⟨h1, h2⟩
    · exact Or.inl ⟨h1, h2⟩
    · exact Or.inr (Or.inl ⟨h1, h2⟩)
    · exact Or.inr (Or.inr ⟨h1, h2⟩)
  rcases hr with ⟨h1, h2⟩ | ⟨h1, h2⟩ | ⟨h1, h2⟩
  · apply char_of_toNat_range
      (fun c => unicodeToLower c = c.toLower ∧ isLowerAlnum c.toLower = true) 65 90 _ c h1 h2
    intro n h1 h2
    interval_cases n <;> decide
  · apply char_of_toNat_range
      (fun c => unicodeToLower c = c.toLower ∧ isLowerAlnum c.toLower = true) 97 122 _ c h1 h2
    intro n h1 h2
    interval_cases n <;> decide
  · apply char_of_toNat_range
      (fun c => unicodeToLower c = c.toLower ∧ isLowerAlnum c.toLower = true) 48 57 _ c h1 h2
    intro n h1 h2
    interval_cases n <;> decide

theorem unicodeToLower_of_toLower (c d : Char) (h : c.toLower = d)
    (h1 : d ≠ Char.ofNat 0x130) (h2 : d ≠ Char.ofNat 0x212A) : unicodeToLower c = d := by
  unfold unicodeToLower
  split
  · next e =>
    exfalso
    apply h1
    rw [← h, e]
    decide
  · split
    · next e =>
      exfalso
      apply h2
      rw [← h, e]
      decide
    · exact h

theorem stringsToLower_ext (E : List Char) (h : E.map Char.toLower = ".pdf".data) :
    stringsToLower E = ".pdf".data := by
  rcases E with _ | ⟨a, _ | ⟨b, _ | ⟨c, _ | ⟨d, _ | ⟨e, E⟩⟩⟩⟩⟩
  case cons.cons.cons.cons.nil =>
    simp only [List.map_cons, List.map_nil, List.cons.injEq, and_true] at h
    obtain ⟨ha, hb, hc, hd⟩ := h
    simp only [stringsToLower, List.map_cons, List.map_nil]
    rw [unicodeToLower_of_toLower a _ ha (by decide) (by decide),
      unicodeToLower_of_toLower b _ hb (by decide) (by decide),
      unicodeToLower_of_toLower c _ hc (by decide) (by decide),
      unicodeToLower_of_toLower d _ hd (by decide) (by decide)]
  all_goals simp at h

theorem filepathBase_append (a b : List Char) (hb : b ≠ []) (hs : '/' ∉ b) :
    filepathBase (a ++ '/' :: b) = b := by
  have hne : a ++ '/' :: b ≠ [] := by simp
  have hlast : ∀ h : a ++ '/' :: b ≠ [], (a ++ '/' :: b).getLast h ≠ '/' := by
    intro h e
    apply hs
    have : (a ++ '/' :: b).getLast h = b.getLast hb := by
      rw [List.getLast_append_of_ne_nil (by simp), List.getLast_cons hb]
    rw [this] at e
    rw [← e]
    exact List.getLast_mem hb
  have h1 : List.rdropWhile (fun c => c == '/') (a ++ '/' :: b) = a ++ '/' :: b := by
    rw [List.rdropWhile_eq_self_iff]
    intro h
    simpa using hlast h
  have h2 : List.rtakeWhile (fun c => c != '/') (a ++ '/' :: b) = b := by
    unfold List.rtakeWhile
    rw [List.reverse_append, List.reverse_cons, List.append_assoc,
      List.takeWhile_append_of_pos]
    · simp
    · intro c hc
      simp only [List.mem_reverse] at hc
      simp only [bne_iff_ne, ne_eq]
      exact fun e => hs (e ▸ hc)
  simp only [filepathBase, hne, if_false, h1, h2, hb]

theorem filepathBase_self (b : List Char) (hb : b ≠ []) (hs : '/' ∉ b) :
    filepathBase b = b := by
  have h1 : List.rdropWhile (fun c => c == '/') b = b := by
    rw [List.rdropWhile_eq_self_iff]
    intro h e
    apply hs
    simp only [beq_iff_eq] at e
    rw [← e]
    exact List.getLast_mem h
  have h2 : List.rtakeWhile (fun c => c != '/') b = b := by
    rw [List.rtakeWhile_eq_self_iff]
    intro c hc
    simp only [bne_iff_ne, ne_eq]
    exact fun e => hs (e ▸ hc)
  simp only [filepathBase, hb, if_false, h1, h2]
theorem replaceNonAlnum_clean (s : List Char) (h : ∀ c ∈ s, isLowerAlnum c = true) :
    replaceNonAlnum s = s := by
  unfold replaceNonAlnum
  have : s.map (fun c => if isLowerAlnum c = true then c else '_') = s.map id := by
    apply List.map_congr_left
    intro c hc
    simp [h c hc]
  rw [this, List.map_id]

theorem collapseRuns_clean (b : Bool) (s t : List Char) (hs : s ≠ []) (h : '_' ∉ s) :
    collapseRuns b (s ++ t) = s ++ collapseRuns false t := by
  induction s generalizing b with
  | nil => exact absurd rfl hs
  | cons c cs ih =>
    simp only [List.mem_cons, not_or] at h
    have hc : ¬ c = '_' := fun e => h.1 e.symm
    rw [List.cons_append]
    simp only [collapseRuns, hc, if_false, List.cons_append, List.cons.injEq, true_and]
    cases cs with
    | nil => rfl
    | cons d ds => exact ih false (by simp) h.2

theorem dropOccurrences_clean (s t : List Char) (h : '_' ∉ s) :
    dropOccurrences "_pdf".data 0 (s ++ t) = s ++ dropOccurrences "_pdf".data 0 t := by
  induction s with
  | nil => rfl
  | cons c cs ih =>
    simp only [List.mem_cons, not_or] at h
    rw [List.cons_append, dropOccurrences_keep, ih h.2]
    · rfl
    · rintro ⟨r, hr⟩
      simp only [List.cons_append, List.cons.injEq] at hr
      exact h.1 hr.1

theorem stringsTrim_clean (s : List Char) (hs : s ≠ []) (h : '_' ∉ s) :
    stringsTrim (s ++ "_pdf".data) '_' = s ++ "_pdf".data := by
  unfold stringsTrim
  have h1 : List.dropWhile (fun c => c == '_') (s ++ "_pdf".data) = s ++ "_pdf".data := by
    cases s with
    | nil => exact absurd rfl hs
    | cons c cs =>
      simp only [List.mem_cons, not_or] at h
      have hc : ¬ c = '_' := fun e => h.1 e.symm
      rw [List.cons_append, List.dropWhile_cons_of_neg]
      simpa using hc
  rw [h1]
  have e : s ++ "_pdf".data = (s ++ "_pd".data) ++ ['f'] := by simp
  rw [e, List.rdropWhile_concat_neg]
  decide

/-- The value of `safe` before the extension test, for a last path element
`name.pdf` with a clean lower-case name. -/
theorem sanitize_name_pdf (n : List Char) (hn : n ≠ [])
    (h : ∀ c ∈ n, isLowerAlnum c = true) :
    dropOccurrences "_pdf".data 0
      (stringsTrim (collapseRuns false (replaceNonAlnum (n ++ ".pdf".data))) '_') = n := by
  have hu : '_' ∉ n := by
    intro hm
    have := h _ hm
    revert this
    decide
  have e1 : replaceNonAlnum (n ++ ".pdf".data) = n ++ "_pdf".data := by
    have : replaceNonAlnum (n ++ ".pdf".data)
        = replaceNonAlnum n ++ replaceNonAlnum ".pdf".data := by
      simp [replaceNonAlnum]
    rw [this, replaceNonAlnum_clean n h]
    rfl
  have e2 : collapseRuns false "_pdf".data = "_pdf".data := by decide
  rw [e1, collapseRuns_clean _ _ _ hn hu, e2, stringsTrim_clean _ hn hu,
    dropOccurrences_clean _ _ hu]
  simp [dropOccurrences]

/-! ## More claims about `urlToFilename` -/

/-- C8: for every prefix `p`, every non-empty `name` made only of ASCII letters and
digits, and the extension written in any letter case, `urlToFilename (p ++ "/" ++
name ++ extension)` is the lower-cased name followed by `.pdf`; in particular
`urlToFilename "https://cam2.com/data-sheets/y.PDF" = "y.pdf"`. -/
theorem urlToFilename_name_ext (p name ext : String)
    (hne : name ≠ "") (hname : ∀ c ∈ name.data, c.isAlphanum = true)
    (hext : ext.toLower = ".pdf") :
    urlToFilename (p ++ "/" ++ name ++ ext) = name.toLower ++ ".pdf" ∧
    urlToFilename "https://cam2.com/data-sheets/y.PDF" = "y.pdf" := by
  refine ⟨?_, by decide⟩
  have hE : stringsToLower ext.data = ".pdf".data := by
    apply stringsToLower_ext
    have := congrArg String.data hext
    simpa [String.toLower, String.map_eq] using this
  have hN : stringsToLower name.data = name.data.map Char.toLower := by
    unfold stringsToLower
    apply List.map_congr_left
    intro c hc
    exact (unicodeToLower_of_isAlphanum c (hname c hc)).1
  have hN0 : name.data.map Char.toLower ≠ [] := by
    intro e
    apply hne
    apply String.ext
    simpa using e
  have hNc : ∀ c ∈ name.data.map Char.toLower, isLowerAlnum c = true := by
    intro c hc
    rw [List.mem_map] at hc
    obtain ⟨d, hd, rfl⟩ := hc
    exact (unicodeToLower_of_isAlphanum d (hname d hd)).2
  have hslash : '/' ∉ name.data.map Char.toLower ++ ".pdf".data := by
    intro hm
    rcases List.mem_append.mp hm with h | h
    · have := hNc _ h
      revert this
      decide
    · revert h
      decide
  have hlow : stringsToLower (p ++ "/" ++ name ++ ext).data
      = stringsToLower p.data ++ '/' :: (name.data.map Char.toLower ++ ".pdf".data) := by
    rw [← hN, ← hE]
    simp [stringsToLower]
    decide
  rw [urlToFilename_eq]
  unfold sanitizedStem
  rw [hlow, filepathBase_append _ _ (by simp [hN0]) hslash, sanitize_name_pdf _ hN0 hNc]
  apply String.ext
  simp [String.toLower, String.map_eq]

theorem urlToFilename_name_ext_witness :
    ("Datasheet7" : String) ≠ "" ∧ (∀ c ∈ ("Datasheet7" : String).data, c.isAlphanum = true) ∧
    (".Pdf" : String).toLower = ".pdf" ∧
    (urlToFilename ("https://cam2.com/wp-content" ++ "/" ++ "Datasheet7" ++ ".Pdf")
        = ("Datasheet7" : String).toLower ++ ".pdf" ∧
      urlToFilename "https://cam2.com/data-sheets/y.PDF" = "y.pdf") :=
  have hext : (".Pdf" : String).toLower = ".pdf" := by
    rw [String.toLower, String.map_eq]
    decide
  ⟨by decide, by decide, hext,
    urlToFilename_name_ext "https://cam2.com/wp-content" "Datasheet7" ".Pdf"
      (by decide) (by decide) hext⟩
theorem stringsToLower_no_slash (b : List Char) (h : '/' ∉ b) : '/' ∉ stringsToLower b := by
  intro hm
  simp only [stringsToLower, List.mem_map] at hm
  obtain ⟨c, hc, e⟩ := hm
  exact h (unicodeToLower_slash c e ▸ hc)

theorem replaceNonAlnum_base_slash (a : List Char) :
    replaceNonAlnum (filepathBase (a ++ ['/'])) = replaceNonAlnum (filepathBase a) := by
  cases a with
  | nil => decide
  | cons c cs =>
    have h1 : List.rdropWhile (fun c => c == '/') (c :: cs ++ ['/'])
        = List.rdropWhile (fun c => c == '/') (c :: cs) :=
      List.rdropWhile_concat_pos _ _ _ (by simp)
    simp only [filepathBase, h1]
    simp

/-- C7 (as the code behaves): `urlToFilename "https://cam2.com/product/x.pdf?v=2"` is
`"x_v_2.pdf"`. -/
theorem urlToFilename_query_kept :
    urlToFilename "https://cam2.com/product/x.pdf?v=2" = "x_v_2.pdf" := by
  decide

/-- C7 as stated fails: the result for `https://cam2.com/product/x.pdf?v=2` is not
`x.pdf`. -/
theorem urlToFilename_query_not_dropped :
    urlToFilename "https://cam2.com/product/x.pdf?v=2" ≠ "x.pdf" := by
  decide

/-- C9 at a concrete input: for `https://cam2.com/docs/a-p.pdfdf` the single
left-to-right removal of `_pdf` turns `a_p_pdfdf` into `a_pdf`, so the part
before the final `.pdf` still contains `_pdf`. -/
theorem urlToFilename_noise_token_left :
    urlToFilename "https://cam2.com/docs/a-p.pdfdf" = "a_pdf" ++ ".pdf" ∧
    "_pdf".data <:+: "a_pdf".data := by
  decide

/-- C10 (as the code behaves): for all strings `a` and `b` where `b` is non-empty
and contains no `/`, `urlToFilename (a ++ "/" ++ b) = urlToFilename b`; and a
trailing `/` is ignored, `urlToFilename (a ++ "/") = urlToFilename a`. -/
theorem urlToFilename_last_segment (a b : String) (hb0 : b ≠ "") (hb : '/' ∉ b.data) :
    urlToFilename (a ++ "/" ++ b) = urlToFilename b ∧
    urlToFilename (a ++ "/") = urlToFilename a := by
  constructor
  · have hL0 : stringsToLower b.data ≠ [] := by
      intro e
      apply hb0
      apply String.ext
      simpa [stringsToLower] using e
    have hLs := stringsToLower_no_slash b.data hb
    have hlow : stringsToLower (a ++ "/" ++ b).data
        = stringsToLower a.data ++ '/' :: stringsToLower b.data := by
      simp [stringsToLower]
      decide
    rw [urlToFilename_eq, urlToFilename_eq]
    unfold sanitizedStem
    rw [hlow, filepathBase_append _ _ hL0 hLs, filepathBase_self _ hL0 hLs]
  · have hlow : stringsToLower (a ++ "/").data = stringsToLower a.data ++ ['/'] := by
      simp [stringsToLower]
      decide
    rw [urlToFilename_eq, urlToFilename_eq]
    unfold sanitizedStem
    rw [hlow, replaceNonAlnum_base_slash]

theorem urlToFilename_last_segment_witness :
    ("x.pdf" : String) ≠ "" ∧ '/' ∉ ("x.pdf" : String).data ∧
    (urlToFilename ("https://cam2.com/product" ++ "/" ++ "x.pdf") = urlToFilename "x.pdf" ∧
      urlToFilename ("https://cam2.com/product" ++ "/") = urlToFilename "https://cam2.com/product") :=
  ⟨by decide, by decide,
    urlToFilename_last_segment "https://cam2.com/product" "x.pdf" (by decide) (by decide)⟩

/-- C10 as stated fails for an empty `b`: the empty string contains no `/`, yet
`urlToFilename ("https://cam2.com/data-sheets" ++ "/" ++ "")` is
`"data_sheets.pdf"` while `urlToFilename ""` is `".pdf"`. -/
theorem urlToFilename_trailing_slash_differs :
    '/' ∉ ("" : String).data ∧
    urlToFilename ("https://cam2.com/data-sheets" ++ "/" ++ "") = "data_sheets.pdf" ∧
    urlToFilename "" = ".pdf" ∧
    urlToFilename ("https://cam2.com/data-sheets" ++ "/" ++ "") ≠ urlToFilename "" := by
  decide

/-- C6 at its input: on the two tags the code returns only the lower-case link;
the pattern has no case-insensitive flag, so `y.PDF` is not matched. -/
theorem extractPDFUrls_scenario :
    extractPDFUrls
        "<a href=\"/product/x.pdf?v=2\"><a href=\"https://cam2.com/data-sheets/y.PDF\">"
      = ["/product/x.pdf?v=2"] := by
  decide
/-! ## The claims about `downloadPDF` -/

theorem stringsContains_iff (s substr : List Char) :
    stringsContains s substr = true ↔ substr <:+: s := by
  induction s with
  | nil =>
    simp only [stringsContains, List.isEmpty_iff, List.infix_nil]
  | cons c cs ih =>
    simp only [stringsContains, Bool.or_eq_true, ih, List.infix_cons_iff,
      List.isPrefixOf_iff_prefix]

/-- C11: with the outcome of each I/O step as an input, `downloadPDF` returns
true if and only if the destination file did not exist, the request was built and
sent without error, the status code is 200, the Content-Type header contains
`application/pdf` or `binary/octet-stream`, the body was read without error and
has at least one byte, and creating and writing the destination file succeeded.
On a disk without the destination: status 200 with `application/pdf` and a
1024-byte body gives true, the same with a 0-byte body gives false, the same with
status 404 gives false. -/
theorem downloadPDF_true_iff (finalURL outputDir : String) (disk : Disk) (o : Outcome) :
    ((downloadPDF finalURL outputDir disk o).1 = true ↔
      fileExists disk (destinationPath finalURL outputDir) = false ∧
      o.requestErr = false ∧ o.sendErr = false ∧
      o.statusCode = 200 ∧
      ("application/pdf".data <:+: o.contentType.data ∨
        "binary/octet-stream".data <:+: o.contentType.data) ∧
      o.readErr = false ∧ 1 ≤ o.body.length ∧
      o.createErr = false ∧ o.writeErr = none) ∧
    (downloadPDF "https://cam2.com/data-sheets/x.pdf" "PDFs/" []
      (Outcome.mk false false 200 "application/pdf" false (List.replicate 1024 0)
        false none)).1 = true ∧
    (downloadPDF "https://cam2.com/data-sheets/x.pdf" "PDFs/" []
      (Outcome.mk false false 200 "application/pdf" false [] false none)).1 = false ∧
    (downloadPDF "https://cam2.com/data-sheets/x.pdf" "PDFs/" []
      (Outcome.mk false false 404 "application/pdf" false (List.replicate 1024 0)
        false none)).1 = false := by
  have key : ∀ (finalURL outputDir : String) (disk : Disk) (o : Outcome),
      ((downloadPDF finalURL outputDir disk o).1 = true ↔
        fileExists disk (destinationPath finalURL outputDir) = false ∧
        o.requestErr = false ∧ o.sendErr = false ∧
        o.statusCode = 200 ∧
        ("application/pdf".data <:+: o.contentType.data ∨
          "binary/octet-stream".data <:+: o.contentType.data) ∧
        o.readErr = false ∧ 1 ≤ o.body.length ∧
        o.createErr = false ∧ o.writeErr = none) := by
    intro finalURL outputDir disk o
    unfold downloadPDF
    simp only
    rw [← stringsContains_iff, ← stringsContains_iff]
    by_cases h1 : fileExists disk (destinationPath finalURL outputDir) = true
    · simp [h1]
    by_cases h2 : o.requestErr = true
    · simp [h1, h2]
    by_cases h3 : o.sendErr = true
    · simp [h1, h2, h3]
    by_cases h4 : o.statusCode = 200
    swap
    · simp [h1, h2, h3, h4]
    by_cases h5 : stringsContains o.contentType.data "binary/octet-stream".data = true
      ∨ stringsContains o.contentType.data "application/pdf".data = true
    swap
    · have h5a := h5
      simp only [not_or, Bool.not_eq_true] at h5
      simp [h1, h2, h3, h4, h5.1, h5.2]
    by_cases h6 : o.readErr = true
    · simp [h1, h2, h3, h4, h6]
    by_cases h7 : o.body.length = 0
    · simp [h1, h2, h3, h4, h6, h7]
    by_cases h8 : o.createErr = true
    · simp [h1, h2, h3, h4, h6, h7, h8]
    have h7b : 1 ≤ o.body.length := by omega
    have h5b : ¬ (stringsContains o.contentType.data "binary/octet-stream".data = false ∧
        stringsContains o.contentType.data "application/pdf".data = false) := by
      intro hh
      rcases h5 with h5 | h5
      · rw [hh.1] at h5; exact absurd h5 (by decide)
      · rw [hh.2] at h5; exact absurd h5 (by decide)
    cases h9 : o.writeErr with
    | none => simp [h1, h2, h3, h4, h5b, h5.symm, h6, h7, h7b, h8]
    | some k => simp [h1, h2, h3, h4, h5b, h6, h7, h8]
  refine ⟨key finalURL outputDir disk o, ?_, ?_, ?_⟩
  · rw [key]
    have hlen : 1 ≤ (List.replicate 1024 0).length := by
      rw [List.length_replicate]
      omega
    exact ⟨by decide, rfl, rfl, rfl, Or.inl (by decide), rfl, hlen, rfl, rfl⟩
  · rw [Bool.eq_false_iff, ne_eq, key]
    intro h
    exact absurd h.2.2.2.2.2.2.1 (by decide)
  · rw [Bool.eq_false_iff, ne_eq, key]
    intro h
    exact absurd h.2.2.2.1 (by decide)

/-- C12 at a concrete input: the disk is empty, the server answers 200 with
`application/pdf` and the four bytes `%PDF`, `os.Create` succeeds and `buf.WriteTo`
fails after two bytes.  `downloadPDF` returns false and the disk now holds
`PDFs/x.pdf` with the two bytes written. -/
theorem downloadPDF_write_failure_leaves_file :
    downloadPDF "https://cam2.com/data-sheets/x.pdf" "PDFs/" []
      (Outcome.mk false false 200 "application/pdf" false [37, 80, 68, 70] false (some 2))
      = (false, [("PDFs/x.pdf", [37, 80])]) ∧
    fileExists [("PDFs/x.pdf", [37, 80])]
      (destinationPath "https://cam2.com/data-sheets/x.pdf" "PDFs/") = true := by
  decide

/-! ## The claims about `hasDomain` and `extractBaseDomain` -/

/-- C13: `hasDomain "relative/path.pdf" = false`, `hasDomain
"https://cam2.com/x.pdf" = true` and `hasDomain "not a url" = false`; `hasDomain`
is true exactly when the string parses as a URL with a non-empty host, and a
string that fails to parse counts as hostless. -/
theorem hasDomain_spec :
    hasDomain "relative/path.pdf" = false ∧
    hasDomain "https://cam2.com/x.pdf" = true ∧
    hasDomain "not a url" = false ∧
    (∀ rawURL : String, hasDomain rawURL = true ↔
      ∃ parsed, urlParse rawURL = some parsed ∧ parsed.Host ≠ "") ∧
    (∀ rawURL : String, urlParse rawURL = none → hasDomain rawURL = false) := by
  refine ⟨by decide, by decide, by decide, ?_, ?_⟩
  · intro rawURL
    unfold hasDomain
    cases h : urlParse rawURL with
    | none => simp
    | some parsed => simp
  · intro rawURL h
    simp [hasDomain, h]

/-- C14 at its two inputs: for a URL with hostname `sub.example.com` the code
returns `example`; for a URL with hostname `blog.my-site.co.uk` it returns `co`,
the label before the last one, not `my-site`. -/
theorem extractBaseDomain_examples :
    (urlParse "https://sub.example.com/page").map urlHostname = some "sub.example.com" ∧
    extractBaseDomain "https://sub.example.com/page" = "example" ∧
    (urlParse "https://blog.my-site.co.uk/page").map urlHostname
      = some "blog.my-site.co.uk" ∧
    extractBaseDomain "https://blog.my-site.co.uk/page" = "co" := by
  decide

/-! ## Every returned link comes from a match: proof aids -/

theorem matchClose_inv (front back s : List Char) (r : List Char × List Char)
    (h : matchClose front back s = some r) :
    s = '"' :: r.2 ∧ r.1 = front ++ ".pdf".data ++ back := by
  unfold matchClose at h
  cases hm : matchLiteral "\"".data s with
  | none => simp [hm] at h
  | some rest =>
    rw [hm] at h
    simp only [Option.some.injEq] at h
    rw [matchLiteral_eq_some] at hm
    subst h
    exact ⟨hm, rfl⟩

theorem matchStar_close_inv (front s acc : List Char) (r : List Char × List Char)
    (h : matchStar (matchClose front) acc s = some r) :
    ∃ w, (∀ c ∈ w, notQuote c = true) ∧ s = w ++ '"' :: r.2 ∧
      r.1 = front ++ ".pdf".data ++ (acc ++ w) := by
  induction s generalizing acc with
  | nil =>
    simp only [matchStar] at h
    have := (matchClose_inv _ _ _ _ h).1
    simp at this
  | cons c cs ih =>
    by_cases hc : notQuote c = true
    · rw [matchStar_cons_pos _ _ _ _ hc] at h
      cases hm : matchStar (matchClose front) (acc ++ [c]) cs with
      | some r2 =>
        rw [hm] at h
        simp only [Option.orElse, Option.some.injEq] at h
        subst h
        obtain ⟨w, hw, hs, hr⟩ := ih _ hm
        refine ⟨c :: w, ?_, by rw [hs]; rfl, by rw [hr]; simp⟩
        intro d hd
        rcases List.mem_cons.mp hd with e | e
        · rw [e]; exact hc
        · exact hw d e
      | none =>
        rw [hm] at h
        simp only [Option.orElse] at h
        obtain ⟨hs, hr⟩ := matchClose_inv _ _ _ _ h
        exact ⟨[], by simp, by simpa using hs, by simpa using hr⟩
    · rw [matchStar_cons_neg _ _ _ _ (by simpa using hc)] at h
      obtain ⟨hs, hr⟩ := matchClose_inv _ _ _ _ h
      exact ⟨[], by simp, by simpa using hs, by simpa using hr⟩

theorem matchPdf_inv (acc s : List Char) (r : List Char × List Char)
    (h : matchPdf acc s = some r) :
    ∃ y, (∀ c ∈ y, notQuote c = true) ∧ s = ".pdf".data ++ y ++ '"' :: r.2 ∧
      r.1 = acc ++ ".pdf".data ++ y := by
  unfold matchPdf at h
  cases hm : matchLiteral ".pdf".data s with
  | none => simp [hm] at h
  | some rest =>
    rw [hm] at h
    simp only at h
    rw [matchLiteral_eq_some] at hm
    obtain ⟨w, hw, hs, hr⟩ := matchStar_close_inv _ _ _ _ h
    refine ⟨w, hw, ?_, by simpa using hr⟩
    rw [hm, hs]
    simp

theorem matchStar_pdf_inv (s acc : List Char) (r : List Char × List Char)
    (h : matchStar matchPdf acc s = some r) :
    ∃ x y, (∀ c ∈ x, notQuote c = true) ∧ (∀ c ∈ y, notQuote c = true) ∧
      s = x ++ ".pdf".data ++ y ++ '"' :: r.2 ∧ r.1 = acc ++ x ++ ".pdf".data ++ y := by
  induction s generalizing acc with
  | nil =>
    simp only [matchStar] at h
    obtain ⟨y, hy, hs, hr⟩ := matchPdf_inv _ _ _ h
    simp at hs
  | cons c cs ih =>
    by_cases hc : notQuote c = true
    · rw [matchStar_cons_pos _ _ _ _ hc] at h
      cases hm : matchStar matchPdf (acc ++ [c]) cs with
      | some r2 =>
        rw [hm] at h
        simp only [Option.orElse, Option.some.injEq] at h
        subst h
        obtain ⟨x, y, hx, hy, hs, hr⟩ := ih _ hm
        refine ⟨c :: x, y, ?_, hy, by rw [hs]; simp, by rw [hr]; simp⟩
        intro d hd
        rcases List.mem_cons.mp hd with e | e
        · rw [e]; exact hc
        · exact hx d e
      | none =>
        rw [hm] at h
        simp only [Option.orElse] at h
        obtain ⟨y, hy, hs, hr⟩ := matchPdf_inv _ _ _ h
        exact ⟨[], y, by simp, hy, by simpa using hs, by simpa using hr⟩
    · rw [matchStar_cons_neg _ _ _ _ (by simpa using hc)] at h
      obtain ⟨y, hy, hs, hr⟩ := matchPdf_inv _ _ _ h
      exact ⟨[], y, by simp, hy, by simpa using hs, by simpa using hr⟩

/-- A match of the pattern: the text starts with `href="`, group 1 and a quote;
group 1 has no quote and holds `.pdf` after at least one character. -/
theorem matchHref_inv (s : List Char) (r : List Char × List Char)
    (h : matchHref s = some r) :
    ∃ x y, x ≠ [] ∧ (∀ c ∈ x, notQuote c = true) ∧ (∀ c ∈ y, notQuote c = true) ∧
      r.1 = x ++ ".pdf".data ++ y ∧ s = "href=\"".data ++ r.1 ++ '"' :: r.2 := by
  unfold matchHref at h
  cases hm : matchLiteral "href=\"".data s with
  | none => simp [hm] at h
  | some rest =>
    rw [hm] at h
    rw [matchLiteral_eq_some] at hm
    cases rest with
    | nil => simp at h
    | cons c cs =>
      simp only at h
      by_cases hc : notQuote c = true
      · simp only [hc, if_true] at h
        obtain ⟨x, y, hx, hy, hs, hr⟩ := matchStar_pdf_inv _ _ _ h
        refine ⟨c :: x, y, by simp, ?_, hy, by rw [hr]; simp, ?_⟩
        · intro d hd
          rcases List.mem_cons.mp hd with e | e
          · rw [e]; exact hc
          · exact hx d e
        · rw [hm, hs, hr]
          simp
      · simp [hc] at h

theorem findAllSubmatch_inv (s : List Char) (n : Nat) (m : List (List Char))
    (h : m ∈ findAllSubmatch n s) :
    ∃ x y, x ≠ [] ∧ (∀ c ∈ x, notQuote c = true) ∧ (∀ c ∈ y, notQuote c = true) ∧
      m = ["href=\"".data ++ (x ++ ".pdf".data ++ y) ++ ['"'], x ++ ".pdf".data ++ y] ∧
      ("href=\"".data ++ (x ++ ".pdf".data ++ y) ++ ['"']) <:+: s := by
  induction s generalizing n with
  | nil => simp [findAllSubmatch] at h
  | cons c cs ih =>
    have step : ∀ k, m ∈ findAllSubmatch k cs →
        ∃ x y, x ≠ [] ∧ (∀ c ∈ x, notQuote c = true) ∧ (∀ c ∈ y, notQuote c = true) ∧
          m = ["href=\"".data ++ (x ++ ".pdf".data ++ y) ++ ['"'], x ++ ".pdf".data ++ y] ∧
          ("href=\"".data ++ (x ++ ".pdf".data ++ y) ++ ['"']) <:+: c :: cs := by
      intro k hk
      obtain ⟨x, y, h1, h2, h3, h4, h5⟩ := ih k hk
      exact ⟨x, y, h1, h2, h3, h4, List.infix_cons h5⟩
    cases n with
    | succ k =>
      simp only [findAllSubmatch] at h
      exact step k h
    | zero =>
      cases hm : matchHref (c :: cs) with
      | none =>
        rw [findAllSubmatch_none _ _ hm] at h
        exact step 0 h
      | some r =>
        obtain ⟨x, y, h1, h2, h3, h4, h5⟩ := matchHref_inv _ _ hm
        have hsplit : c :: cs = ("href=\"".data ++ r.1 ++ ['"']) ++ r.2 := by
          rw [h5]; simp
        have hdef : findAllSubmatch 0 (c :: cs)
            = [List.take ((c :: cs).length - r.2.length) (c :: cs), r.1]
              :: findAllSubmatch
                ((List.take ((c :: cs).length - r.2.length) (c :: cs)).length - 1) cs := by
          simp only [findAllSubmatch, hm]
        have htake : List.take ((c :: cs).length - r.2.length) (c :: cs)
            = "href=\"".data ++ r.1 ++ ['"'] := by
          rw [hsplit]
          apply List.take_left'
          simp only [List.length_append]
          omega
        rw [hdef, htake] at h
        rcases List.mem_cons.mp h with e | e
        · refine ⟨x, y, h1, h2, h3, by rw [e, h4], ?_⟩
          rw [hsplit, ← h4]
          exact (List.prefix_append _ _).isInfix
        · exact step _ e

theorem mem_extractPDFUrls (text s : String) (h : s ∈ extractPDFUrls text) :
    ∃ x y, x ≠ [] ∧ (∀ c ∈ x, notQuote c = true) ∧ (∀ c ∈ y, notQuote c = true) ∧
      s.data = x ++ ".pdf".data ++ y ∧
      ("href=\"".data ++ s.data ++ ['"']) <:+: text.data := by
  rw [extractPDFUrls_eq, List.mem_filterMap] at h
  obtain ⟨m, hm, hs⟩ := h
  obtain ⟨x, y, h1, h2, h3, h4, h5⟩ := findAllSubmatch_inv _ _ _ hm
  subst h4
  simp only [Option.some.injEq] at hs
  subst hs
  exact ⟨x, y, h1, h2, h3, rfl, h5⟩

/-! ## The claim about what `extractPDFUrls` can return -/

/-- C15: for every text and every string `s` returned by `extractPDFUrls text`:
`s` contains no double-quote character, `s` has the shape (one or more
characters) ++ ".pdf" (lower case) ++ (zero or more characters), and `href="` ++
s ++ `"` occurs as a substring of the text.  So a value that is exactly `.pdf` is
never returned, a value without the lower-case `.pdf` (an upper-case extension
only) is never returned, and a text without the substring `.pdf` yields an empty
result. -/
theorem extractPDFUrls_sound (text : String) :
    (∀ s ∈ extractPDFUrls text,
      '"' ∉ s.data ∧
      (∃ x y : String, x ≠ "" ∧ s = x ++ ".pdf" ++ y) ∧
      ("href=\"" ++ s ++ "\"").data <:+: text.data ∧
      s ≠ ".pdf" ∧
      ".pdf".data <:+: s.data) ∧
    (¬ ".pdf".data <:+: text.data → extractPDFUrls text = []) ∧
    extractPDFUrls "<a href=\".pdf\"><a href=\"https://cam2.com/data-sheets/y.PDF\">" = [] := by
  refine ⟨?_, ?_, by decide⟩
  · intro s hs
    obtain ⟨x, y, h1, h2, h3, h4, h5⟩ := mem_extractPDFUrls text s hs
    refine ⟨?_, ⟨String.mk x, String.mk y, ?_, ?_⟩, ?_, ?_, ?_⟩
    · intro hq
      rw [h4] at hq
      have hpdf : '"' ∉ ".pdf".data := by decide
      have hnq : ∀ c ∈ x ++ y, notQuote c = true := by
        intro c hc
        rcases List.mem_append.mp hc with e | e
        · exact h2 c e
        · exact h3 c e
      simp only [List.mem_append] at hq
      rcases hq with (e | e) | e
      · exact absurd (hnq _ (List.mem_append_left _ e)) (by decide)
      · exact hpdf e
      · exact absurd (hnq _ (List.mem_append_right _ e)) (by decide)
    · intro e
      apply h1
      simpa using congrArg String.data e
    · apply String.ext
      simp [h4]
    · simpa using h5
    · intro e
      have := congrArg (fun t => t.data.length) e
      simp only [h4, List.length_append] at this
      have hx : 0 < x.length := List.length_pos.mpr h1
      have h4len : ".pdf".data.length = 4 := rfl
      omega
    · rw [h4]
      exact ⟨x, y, rfl⟩
  · intro hno
    cases hres : extractPDFUrls text with
    | nil => rfl
    | cons s rest =>
      exfalso
      have hs : s ∈ extractPDFUrls text := by rw [hres]; exact List.mem_cons_self _ _
      obtain ⟨x, y, h1, h2, h3, h4, h5⟩ := mem_extractPDFUrls text s hs
      apply hno
      have hin : ".pdf".data <:+: "href=\"".data ++ s.data ++ ['"'] := by
        rw [h4]
        exact ⟨"href=\"".data ++ x, y ++ ['"'], by simp⟩
      exact List.IsInfix.trans hin h5

/-- C15 at a concrete text: the one returned link has the stated properties. -/
theorem extractPDFUrls_sound_witness :
    "/product/x.pdf?v=2" ∈ extractPDFUrls
      "<a href=\"/product/x.pdf?v=2\"><a href=\"https://cam2.com/data-sheets/y.PDF\">" ∧
    ('"' ∉ ("/product/x.pdf?v=2" : String).data ∧
      (∃ x y : String, x ≠ "" ∧ "/product/x.pdf?v=2" = x ++ ".pdf" ++ y) ∧
      ("href=\"" ++ "/product/x.pdf?v=2" ++ "\"").data <:+:
        ("<a href=\"/product/x.pdf?v=2\"><a href=\"https://cam2.com/data-sheets/y.PDF\">"
          : String).data ∧
      ("/product/x.pdf?v=2" : String) ≠ ".pdf" ∧
      ".pdf".data <:+: ("/product/x.pdf?v=2" : String).data) :=
  ⟨by decide,
    (extractPDFUrls_sound
      "<a href=\"/product/x.pdf?v=2\"><a href=\"https://cam2.com/data-sheets/y.PDF\">").1
      "/product/x.pdf?v=2" (by decide)⟩

end Cam2
